import Mathlib

/-! mparser: pattern extraction and link-title resolution.

A shallow embedding of `parser/parser.go`.

* Go strings and byte slices are modelled as `List Char` (the sequence of runes of
  well-formed UTF-8 text).
* `regexp` is modelled by a backtracking matcher over a small regular-expression syntax. The
  Go documentation defines the match chosen by `regexp` as the leftmost one and, among the
  leftmost ones, the one a backtracking search finds first; `Regex.run` is that search.
* `net/url` and `idna` are parameters (`NetLib`), and so is the HTTP client (`HttpClient`).
* The order in which goroutines deliver on the channel, and the order in which `range`
  walks a map, are parameters (a list of choices among the pending items).
-/

namespace MParser

/-- Text: the sequence of runes of a Go string or byte slice. -/
abbrev Str := List Char

/-- Capture assignments made along a match, latest first. -/
abbrev Caps := List (Nat × Str)

/-- Outcome of a match attempt: the input left after the match, and the captures. -/
abbrev MatchResult := Option (Str × Caps)

/-- Continuation of a match attempt. -/
abbrev Cont := Str → Caps → MatchResult

/-! ## Regular expressions -/

/-- Syntax of the regular expressions used by the parser. -/
inductive Regex where
  | eps : Regex
  | cls : (Char → Bool) → Regex
  | seq : Regex → Regex → Regex
  | alt : Regex → Regex → Regex
  | star : Bool → Regex → Regex
  | group : Nat → Regex → Regex

/-- First alternative if it succeeds, otherwise the second. -/
def orElse (a b : MatchResult) : MatchResult :=
  match a with
  | some x => some x
  | none => b

/-- Repetition loop of `star`: `greedy` tries one more iteration before leaving the loop, the
lazy form leaves first. An iteration that consumes nothing is not repeated. -/
def starLoop (body : Str → Caps → Cont → MatchResult) (greedy : Bool) :
    Nat → Str → Caps → Cont → MatchResult
  | 0, s, c, k => k s c
  | n + 1, s, c, k =>
    let more := body s c (fun s1 c1 =>
      if s1.length < s.length then starLoop body greedy n s1 c1 k else none)
    if greedy then orElse more (k s c) else orElse (k s c) more

/-- Backtracking search: `r.run s c k` matches `r` at the front of `s` and hands the rest of
the input to `k`, trying the alternatives in priority order. -/
def Regex.run : Regex → Str → Caps → Cont → MatchResult
  | .eps, s, c, k => k s c
  | .cls p, s, c, k =>
    match s with
    | [] => none
    | x :: xs => if p x then k xs c else none
  | .seq a b, s, c, k => a.run s c (fun s1 c1 => b.run s1 c1 k)
  | .alt a b, s, c, k => orElse (a.run s c k) (b.run s c k)
  | .star g r, s, c, k => starLoop (fun s1 c1 k1 => r.run s1 c1 k1) g s.length s c k
  | .group n r, s, c, k =>
    r.run s c (fun s1 c1 => k s1 ((n, s.take (s.length - s1.length)) :: c1))

/-- The single character `ch`. -/
def Regex.chr (ch : Char) : Regex := .cls (fun x => x == ch)

/-- A literal string. -/
def Regex.lit : Str → Regex
  | [] => .eps
  | x :: xs => .seq (.chr x) (Regex.lit xs)

/-- Greedy `r?`. -/
def Regex.opt (r : Regex) : Regex := .alt r .eps

/-- Greedy `r+`. -/
def Regex.plus (r : Regex) : Regex := .seq r (.star true r)

/-- Exactly `n` copies of `r`. -/
def Regex.copies (r : Regex) : Nat → Regex
  | 0 => .eps
  | n + 1 => .seq r (Regex.copies r n)

/-- Up to `n` copies of `r`, nested as `(r(r(r)?)?)?`. -/
def Regex.upTo (r : Regex) : Nat → Regex
  | 0 => .eps
  | n + 1 => Regex.opt (.seq r (Regex.upTo r n))

/-- Counted repetition `r{lo,hi}`. -/
def Regex.rep (r : Regex) (lo hi : Nat) : Regex :=
  .seq (Regex.copies r lo) (Regex.upTo r (hi - lo))

/-- Match of `r` at the very front of `s`: the rest of the input and the captures. -/
def Regex.matchAt (r : Regex) (s : Str) : MatchResult :=
  r.run s [] (fun s1 c1 => some (s1, c1))

/-- One match: the input from the start of the match on, the input after the match, and the
captures. -/
structure Match where
  start : Str
  rest : Str
  caps : Caps
deriving DecidableEq, Repr

/-- The matched text. -/
def Match.text (m : Match) : Str := m.start.take (m.start.length - m.rest.length)

/-- Capture group `n` of a match (empty when the group took no part in the match). -/
def Match.sub (m : Match) (n : Nat) : Str := (m.caps.lookup n).getD []

/-- Leftmost match at or after the current position. -/
def Regex.search (r : Regex) : Str → Option Match
  | [] => (r.matchAt []).map (fun p => ⟨[], p.1, p.2⟩)
  | x :: xs =>
    match r.matchAt (x :: xs) with
    | some p => some ⟨x :: xs, p.1, p.2⟩
    | none => Regex.search r xs

/-- The loop of `allMatches` in Go's `regexp`: successive leftmost matches, each search
starting where the previous match ended. An empty match moves the position one rune forward
and is dropped when it sits right after the previous match. `prev` is the length of the input
left after the previous match. -/
def Regex.allMatchesAux (r : Regex) : Nat → Str → Option Nat → List Match
  | 0, _, _ => []
  | fuel + 1, s, prev =>
    match r.search s with
    | none => []
    | some m =>
      if m.rest.length = s.length then
        let out := if prev = some m.start.length then [] else [m]
        match s with
        | [] => out
        | _ :: xs => out ++ Regex.allMatchesAux r fuel xs (some m.rest.length)
      else
        m :: Regex.allMatchesAux r fuel m.rest (some m.rest.length)

/-- All successive matches of `r` in `s` (`FindAll...(s, -1)`). -/
def Regex.allMatches (r : Regex) (s : Str) : List Match :=
  r.allMatchesAux (s.length + 1) s none

/-- Go `FindAllString(s, -1)`: the matched texts. -/
def FindAllString (r : Regex) (s : Str) : List Str :=
  (r.allMatches s).map Match.text

/-- Go `FindAllStringSubmatch(s, -1)` / `FindAllSubmatch(b, -1)`: the matches with their
capture groups. -/
def FindAllSubmatch (r : Regex) (s : Str) : List Match :=
  r.allMatches s

/-! ## Character classes -/

/-- Perl class `\w`: ASCII letters, digits and underscore. -/
def isWord (c : Char) : Bool :=
  let n := c.toNat
  (48 ≤ n && n ≤ 57) || (65 ≤ n && n ≤ 90) || (97 ≤ n && n ≤ 122) || n == 95

/-- POSIX class `[:space:]`: tab, newline, vertical tab, form feed, carriage return, space. -/
def isSpace (c : Char) : Bool :=
  let n := c.toNat
  (9 ≤ n && n ≤ 13) || n == 32

/-- Class `[0-9]`. -/
def isDigit (c : Char) : Bool :=
  let n := c.toNat
  48 ≤ n && n ≤ 57

/-- The dot: any character but newline. -/
def isDot (c : Char) : Bool := c != '\n'

/-- Class `[^/:\.[:space:]]`. -/
def isHostChar (c : Char) : Bool :=
  !(c == '/' || c == ':' || c == '.' || isSpace c)

/-- Class `[^?#[:space:]]`. -/
def isPathChar (c : Char) : Bool :=
  !(c == '?' || c == '#' || isSpace c)

/-- Class `[^#[:space:]]`. -/
def isQueryChar (c : Char) : Bool :=
  !(c == '#' || isSpace c)

/-! ## The patterns of `parser.go` -/

/-- Pattern `\((\w{1,15})\)`. -/
def regexEmoticons : Regex :=
  .seq (.chr '(') (.seq (.group 1 (Regex.rep (.cls isWord) 1 15)) (.chr ')'))

/-- Pattern `@(\w+)`. -/
def regexMentions : Regex :=
  .seq (.chr '@') (.group 1 (Regex.plus (.cls isWord)))

/-- Host alternative `([^/:\.[:space:]]+(\.[^/:\.[:space:]]+)*)`. -/
def reHostName : Regex :=
  .group 2 (.seq (Regex.plus (.cls isHostChar))
    (.star true (.group 3 (.seq (.chr '.') (Regex.plus (.cls isHostChar))))))

/-- Host alternative `([0-9](\.[0-9]{3}))`. -/
def reHostNum : Regex :=
  .group 4 (.seq (.cls isDigit) (.group 5 (.seq (.chr '.') (Regex.copies (.cls isDigit) 3))))

/-- Tail `((/[^?#[:space:]]+)(\?[^#[:space:]]+)?(\#.+)?)?`. -/
def reTail : Regex :=
  Regex.opt (.group 7
    (.seq (.group 8 (.seq (.chr '/') (Regex.plus (.cls isPathChar))))
      (.seq (Regex.opt (.group 9 (.seq (.chr '?') (Regex.plus (.cls isQueryChar)))))
        (Regex.opt (.group 10 (.seq (.chr '#') (Regex.plus (.cls isDot))))))))

/-- Pattern
`http[s]?://(([^/:\.[:space:]]+(\.[^/:\.[:space:]]+)*)|([0-9](\.[0-9]{3})))(:[0-9]+)?`
followed by `((/[^?#[:space:]]+)(\?[^#[:space:]]+)?(\#.+)?)?`. -/
def regexLinks : Regex :=
  .seq (Regex.lit "http".toList)
    (.seq (Regex.opt (.chr 's'))
      (.seq (Regex.lit "://".toList)
        (.seq (.group 1 (.alt reHostName reHostNum))
          (.seq (Regex.opt (.group 6 (.seq (.chr ':') (Regex.plus (.cls isDigit)))))
            reTail))))

/-- Any character: `(.|\n)`. -/
def reAny : Regex := .alt (.cls isDot) (.chr '\n')

/-- Pattern `<title((.|\n)*?)>((.|\n)*?)</title>`. -/
def regexTitle : Regex :=
  .seq (Regex.lit "<title".toList)
    (.seq (.group 1 (.star false (.group 2 reAny)))
      (.seq (.chr '>')
        (.seq (.group 3 (.star false (.group 4 reAny)))
          (Regex.lit "</title>".toList))))

/-! ## Scheduling -/

/-- Takes `n` items out of a pool one at a time; which of the items still in the pool comes
next is decided by `choices` (the head, modulo the number of items left; the first item when
the choices have run out). It models both the order in which goroutines blocked on a channel
get to deliver, and the order in which `range` walks the keys of a map. An empty pool yields
nothing, which never arises in this program, where `n` is the size of the pool. -/
def drain {α : Type} : Nat → List Nat → List α → List α
  | 0, _, _ => []
  | n + 1, choices, pool =>
    match pool with
    | [] => []
    | p :: ps =>
      let i := choices.headD 0 % (ps.length + 1)
      (p :: ps).getD i p :: drain n choices.tail ((p :: ps).eraseIdx i)

/-! ## The data model -/

/-- Go `Link`. -/
structure Link where
  URL : Str
  Title : Str
deriving DecidableEq, Repr

/-- Go `MessageInfo`. -/
structure MessageInfo where
  Mentions : List Str
  Emoticons : List Str
  Links : List Link
deriving DecidableEq, Repr

/-- The library functions `sanitizeUrl` calls: `url.Parse`, the `Host` field of the parsed
URL and its update, `(*URL).String` and `idna.ToASCII`. `U` is the type of parsed URLs and `E`
the type of errors. -/
structure NetLib (U E : Type) where
  urlParse : Str → Except E U
  host : U → Str
  setHost : U → Str → U
  urlString : U → Str
  toASCII : Str → Except E Str

/-- What a task gets from `httpClient.Get` followed by `ioutil.ReadAll`: a failed request, a
response whose body cannot be read, or a body. -/
inductive Fetch where
  | getError : Fetch
  | readError : Fetch
  | body : Str → Fetch
deriving DecidableEq, Repr

/-- Behaviour of the HTTP client: the outcome of the request that the task of the `i`-th match
issues for a URL. -/
abbrev HttpClient := Nat → Str → Fetch

/-- The fallback title. -/
def website : Str := "Website".toList

/-! ## The functions of `parser.go` -/

/-- Go `isASCII`. -/
def isASCII : Str → Bool
  | [] => true
  | c :: cs => if c.toNat > 127 then false else isASCII cs

/-- Go `sanitizeUrl`. -/
def sanitizeUrl {U E : Type} (lib : NetLib U E) (link : Str) : Except E Str :=
  if isASCII link then .ok link
  else
    match lib.urlParse link with
    | .error err => .error err
    | .ok u =>
      match lib.toASCII (lib.host u) with
      | .error err => .error err
      | .ok h => .ok (lib.urlString (lib.setHost u h))

/-- What one task of `parseLinks` does: the `Link` it sends on `linkReceiver`, and the URLs
it passed to `httpClient.Get`. -/
structure TaskResult where
  link : Link
  gets : List Str
deriving DecidableEq, Repr

/-- The goroutine body in `parseLinks`, run for the `i`-th match `link`. -/
def linkTask {U E : Type} (lib : NetLib U E) (client : HttpClient) (i : Nat) (link : Str) :
    TaskResult :=
  let l : Link := ⟨link, website⟩
  match sanitizeUrl lib link with
  | .error _ => ⟨l, []⟩
  | .ok sanitizedLink =>
    match client i sanitizedLink with
    | .getError => ⟨l, [sanitizedLink]⟩
    | .readError => ⟨l, [sanitizedLink]⟩
    | .body b =>
      match FindAllSubmatch regexTitle b with
      | [] => ⟨l, [sanitizedLink]⟩
      | m :: _ => ⟨{ l with Title := m.sub 3 }, [sanitizedLink]⟩

/-- The values the tasks of `parseLinks` send, listed by the match they were started for. -/
def linkTasks {U E : Type} (lib : NetLib U E) (client : HttpClient) (linkMatches : List Str) :
    List TaskResult :=
  linkMatches.enum.map (fun p => linkTask lib client p.1 p.2)

/-- Go `parseLinks`. `sched` is the order in which the tasks deliver on `linkReceiver`. -/
def parseLinks {U E : Type} (lib : NetLib U E) (client : HttpClient) (sched : List Nat)
    (text : Str) : List Link :=
  let linkMatches := FindAllString regexLinks text
  if linkMatches.length ≤ 0 then []
  else drain linkMatches.length sched ((linkTasks lib client linkMatches).map TaskResult.link)

/-- Go map assignment `m[key] = struct{}{}`, the map being the list of its keys. -/
def mapSet (m : List Str) (key : Str) : List Str :=
  if key ∈ m then m else m ++ [key]

/-- The map built by the first loop of `parseMentions` and `parseEmoticons`. -/
def uniqueKeys (ms : List Match) : List Str :=
  ms.foldl (fun m mt => mapSet m (mt.sub 1)) []

/-- Go `parseMentions`. `iter` is the order in which `range` walks the map. -/
def parseMentions (iter : List Nat) (text : Str) : List Str :=
  let uniqueMentions := uniqueKeys (FindAllSubmatch regexMentions text)
  drain uniqueMentions.length iter uniqueMentions

/-- Go `parseEmoticons`. `iter` is the order in which `range` walks the map. -/
def parseEmoticons (iter : List Nat) (text : Str) : List Str :=
  let uniqueEmoticons := uniqueKeys (FindAllSubmatch regexEmoticons text)
  drain uniqueEmoticons.length iter uniqueEmoticons

/-- Go `Parse`. -/
def Parse {U E : Type} (lib : NetLib U E) (client : HttpClient)
    (iterM iterE sched : List Nat) (text : Str) : MessageInfo :=
  { Mentions := parseMentions iterM text
    Emoticons := parseEmoticons iterE text
    Links := parseLinks lib client sched text }

/-- The synchronous resolver of the specification: each match resolved on its own, in
discovery order. -/
def resolveSync {U E : Type} (lib : NetLib U E) (client : HttpClient) (text : Str) :
    List Link :=
  (linkTasks lib client (FindAllString regexLinks text)).map TaskResult.link

/-! ## Sample collaborators

Stand-ins for the libraries and the test server of `parser_test.go`, used to evaluate the
parser on concrete inputs. -/

/-- A stand-in for `net/url` and `idna` on links of the form `http://host`: the host is what
follows the seven characters of the scheme, and `ToASCII` knows the host of the repository's
test (`торрент.рф`) and fails on any other. -/
def sampleLib : NetLib Str Unit where
  urlParse := fun s => .ok s
  host := fun u => u.drop 7
  setHost := fun u h => u.take 7 ++ h
  urlString := fun u => u
  toASCII := fun h =>
    if h = "торрент.рф".toList then .ok "xn--e1aqbiajf.xn--p1ai".toList else .error ()

/-- A stand-in for the test server: the page of `http://a` has the title `A`, the page of the
punycode host has the title of the repository's test, any other page has no title. -/
def sampleClient : HttpClient := fun _ u =>
  if u = "http://a".toList then .body "x<title>A</title>".toList
  else if u = "http://xn--e1aqbiajf.xn--p1ai".toList then
    .body "<title \n id=3 >Торрент треккер</title>".toList
  else .body "Foo site without title".toList

/-- A server that answers every request with the same page. -/
def pageClient (page : Str) : HttpClient := fun _ _ => .body page

/-! ## Notions used in the statements -/

/-- Every match of `r` takes at least one character. -/
def ConsumesInput (r : Regex) : Prop :=
  ∀ (s : Str) (p : Str × Caps), r.matchAt s = some p → p.1.length < s.length

/-- The specification's mention: `v` is a maximal non-empty run of word characters that
comes right after an `@` of the text. -/
def IsMentionRun (text v : Str) : Prop :=
  ∃ pre post : Str, text = pre ++ '@' :: v ++ post ∧ v ≠ [] ∧ (∀ c ∈ v, isWord c = true)
    ∧ ∀ c, post.head? = some c → isWord c = false

/-- The specification's emoticon: `e` is made of 1 to 15 word characters and `(e)` occurs in
the text. -/
def IsEmoticon (text e : Str) : Prop :=
  1 ≤ e.length ∧ e.length ≤ 15 ∧ (∀ c ∈ e, isWord c = true)
    ∧ ∃ pre post : Str, text = pre ++ '(' :: e ++ ')' :: post

/-! ## Results as Go values, and requests -/

/-- Go `sanitizeUrl` with both of its results: the string, and the error (`none` for `nil`). -/
def sanitizeUrlPair {U E : Type} (lib : NetLib U E) (link : Str) : Str × Option E :=
  if isASCII link then (link, none)
  else
    match lib.urlParse link with
    | .error err => ([], some err)
    | .ok u =>
      match lib.toASCII (lib.host u) with
      | .error err => ([], some err)
      | .ok h => (lib.urlString (lib.setHost u h), none)

/-- The title a task takes from the outcome of its request: group 3 of the first match of the
title pattern in the body, and the fallback when the request failed, the body could not be
read, or the pattern has no match. -/
def titleOfFetch : Fetch → Str
  | .getError => website
  | .readError => website
  | .body b =>
    match FindAllSubmatch regexTitle b with
    | [] => website
    | m :: _ => m.sub 3

/-- The URLs passed to `httpClient.Get` during a call of `parseLinks`, listed by task. No task
is started when the link pattern has no match. -/
def parseLinksGets {U E : Type} (lib : NetLib U E) (client : HttpClient) (text : Str) :
    List Str :=
  let linkMatches := FindAllString regexLinks text
  if linkMatches.length ≤ 0 then []
  else ((linkTasks lib client linkMatches).map TaskResult.gets).flatten

/-- A Go slice value: `nil`, or an allocated slice with its elements. -/
inductive Slice (α : Type) where
  | nil : Slice α
  | alloc : List α → Slice α
deriving DecidableEq, Repr

/-- The value `parseMentions` returns: the slice `mentions` allocated by `make`. -/
def parseMentionsValue (iter : List Nat) (text : Str) : Slice Str :=
  .alloc (parseMentions iter text)

/-- The value `parseEmoticons` returns: the slice `emoticons` allocated by `make`. -/
def parseEmoticonsValue (iter : List Nat) (text : Str) : Slice Str :=
  .alloc (parseEmoticons iter text)

/-- The value `parseLinks` returns: the literal `[]Link{}` when the pattern has no match, and
otherwise the slice `links` allocated by `make`. -/
def parseLinksValue {U E : Type} (lib : NetLib U E) (client : HttpClient) (sched : List Nat)
    (text : Str) : Slice Link :=
  if (FindAllString regexLinks text).length ≤ 0 then .alloc []
  else .alloc (parseLinks lib client sched text)

/-- A client whose every request fails. -/
def failingClient : HttpClient := fun _ _ => .getError

/-- A client that serves the page of `http://a` and fails on every other request. -/
def onlyAClient : HttpClient := fun _ u =>
  if u = "http://a".toList then .body "x<title>A</title>".toList else .getError

/-- The strings of `ms` occur in `s` one after the other, in this order and without
overlap. -/
def OccurInOrder : List Str → Str → Prop
  | [], _ => True
  | m :: ms, s => ∃ gap rest : Str, s = gap ++ m ++ rest ∧ OccurInOrder ms rest

/-! ## Scheduling lemmas -/

theorem getD_cons_eraseIdx_perm {α : Type} (l : List α) (i : Nat) (d : α) (h : i < l.length) :
    (l.getD i d :: l.eraseIdx i).Perm l := by
  induction l generalizing i with
  | nil => simp at h
  | cons a as ih =>
    cases i with
    | zero => simp
    | succ j =>
      have hj : j < as.length := by simpa using h
      have h1 := ih j hj
      simp only [List.getD_cons_succ, List.eraseIdx_cons_succ]
      exact (List.Perm.swap a (as.getD j d) (as.eraseIdx j)).trans (List.Perm.cons a h1)

theorem drain_perm {α : Type} (n : Nat) (choices : List Nat) (pool : List α)
    (h : pool.length = n) : (drain n choices pool).Perm pool := by
  induction n generalizing choices pool with
  | zero =>
    have : pool = [] := List.length_eq_zero.mp h
    subst this
    simp [drain]
  | succ n ih =>
    cases pool with
    | nil => simp at h
    | cons p ps =>
      simp only [drain]
      have hi : choices.headD 0 % (ps.length + 1) < (p :: ps).length := by
        simpa using Nat.mod_lt _ (Nat.succ_pos _)
      have hlen : ((p :: ps).eraseIdx (choices.headD 0 % (ps.length + 1))).length = n := by
        rw [List.length_eraseIdx]
        simp only [hi, if_true]
        simpa using h
      exact (List.Perm.cons _ (ih choices.tail _ hlen)).trans
        (getD_cons_eraseIdx_perm (p :: ps) _ p hi)

theorem drain_zeros {α : Type} (n k : Nat) (pool : List α) (h : pool.length = n) :
    drain n (List.replicate k 0) pool = pool := by
  induction n generalizing k pool with
  | zero =>
    have : pool = [] := List.length_eq_zero.mp h
    subst this
    simp [drain]
  | succ n ih =>
    cases pool with
    | nil => simp at h
    | cons p ps =>
      have hps : ps.length = n := by simpa using h
      have hh : (List.replicate k 0).headD 0 = 0 := by cases k <;> simp [List.replicate]
      have ht : (List.replicate k 0).tail = List.replicate (k - 1) 0 := by
        cases k <;> simp [List.replicate]
      simp only [drain, hh, ht, Nat.zero_mod, List.getD_cons_zero, List.eraseIdx_cons_zero]
      rw [ih (k - 1) ps hps]

/-- Every rearrangement of the pool is produced by some list of choices. -/
theorem drain_surjective {α : Type} (pool out : List α) (h : out.Perm pool) :
    ∃ choices, drain pool.length choices pool = out := by
  induction out generalizing pool with
  | nil =>
    have : pool = [] := by simpa using h.symm.eq_nil
    subst this
    exact ⟨[], by simp [drain]⟩
  | cons a as ih =>
    classical
    have ha : a ∈ pool := h.subset (List.mem_cons_self a as)
    cases pool with
    | nil => simp at ha
    | cons p ps =>
      obtain ⟨i, hi, hget⟩ := List.getElem_of_mem ha
      have hperm : as.Perm ((p :: ps).eraseIdx i) := by
        have h1 := (getD_cons_eraseIdx_perm (p :: ps) i p hi)
        have h2 : ((p :: ps).getD i p) = a := by
          rw [List.getD_eq_getElem _ _ hi]; exact hget
        rw [h2] at h1
        exact (List.Perm.cons_inv (h.trans h1.symm))
      obtain ⟨cs, hcs⟩ := ih _ hperm
      have hi2 : i < ps.length + 1 := by simpa using hi
      have hlen : ((p :: ps).eraseIdx i).length = ps.length := by
        rw [List.length_eraseIdx]; simp [hi2]
      refine ⟨i :: cs, ?_⟩
      simp only [List.length_cons, drain, List.headD_cons, List.tail_cons, Nat.mod_eq_of_lt hi2]
      rw [List.getD_eq_getElem _ _ hi, hget, ← hlen, hcs]

/-! ## The tasks of `parseLinks` -/

theorem linkTask_url {U E : Type} (lib : NetLib U E) (client : HttpClient) (i : Nat)
    (link : Str) : (linkTask lib client i link).link.URL = link := by
  unfold linkTask
  cases sanitizeUrl lib link with
  | error e => rfl
  | ok s =>
    dsimp only
    cases client i s with
    | getError => rfl
    | readError => rfl
    | body b =>
      dsimp only
      cases FindAllSubmatch regexTitle b <;> rfl

theorem linkTasks_length {U E : Type} (lib : NetLib U E) (client : HttpClient)
    (ms : List Str) : (linkTasks lib client ms).length = ms.length := by
  simp [linkTasks]

theorem linkTasks_urls {U E : Type} (lib : NetLib U E) (client : HttpClient) (ms : List Str) :
    ((linkTasks lib client ms).map TaskResult.link).map Link.URL = ms := by
  simp only [linkTasks, List.map_map]
  have h : (Link.URL ∘ TaskResult.link ∘ fun p : Nat × Str => linkTask lib client p.1 p.2)
      = Prod.snd := by
    funext p
    simp [linkTask_url]
  rw [h]
  exact List.enum_map_snd ms

theorem parseLinks_eq_drain {U E : Type} (lib : NetLib U E) (client : HttpClient)
    (sched : List Nat) (text : Str) :
    parseLinks lib client sched text
      = drain (resolveSync lib client text).length sched (resolveSync lib client text) := by
  unfold parseLinks resolveSync
  simp only [List.length_map, linkTasks_length]
  split
  · rename_i h
    have h0 : FindAllString regexLinks text = [] := by
      apply List.length_eq_zero.mp
      omega
    simp [h0, linkTasks, drain]
  · rfl

theorem parseLinks_perm {U E : Type} (lib : NetLib U E) (client : HttpClient)
    (sched : List Nat) (text : Str) :
    (parseLinks lib client sched text).Perm (resolveSync lib client text) := by
  rw [parseLinks_eq_drain]
  exact drain_perm _ _ _ rfl

/-- C1, as the code has it: whatever the order of delivery, `parseLinks` returns the Links of
the synchronous resolution rearranged (the Link received first comes first), and when the
tasks deliver in discovery order it returns exactly the synchronous resolution. -/
theorem parseLinks_rearranges_resolveSync {U E : Type} (lib : NetLib U E)
    (client : HttpClient) (text : Str) :
    (∀ sched : List Nat, (parseLinks lib client sched text).Perm (resolveSync lib client text))
    ∧ (∀ k : Nat, parseLinks lib client (List.replicate k 0) text
        = resolveSync lib client text)
    ∧ (∀ out : List Link, out.Perm (resolveSync lib client text) →
        ∃ sched, parseLinks lib client sched text = out) := by
  refine ⟨fun sched => parseLinks_perm lib client sched text, ?_, ?_⟩
  · intro k
    rw [parseLinks_eq_drain]
    exact drain_zeros _ _ _ rfl
  · intro out hout
    obtain ⟨cs, hcs⟩ := drain_surjective (resolveSync lib client text) out hout
    exact ⟨cs, by rw [parseLinks_eq_drain, hcs]⟩

/-- C1, as stated, fails: with two links whose tasks deliver in the opposite order, the first
Link returned describes the second match. -/
theorem parseLinks_order_counterexample :
    parseLinks sampleLib sampleClient [1] "http://a http://b".toList
      = [⟨"http://b".toList, "Website".toList⟩, ⟨"http://a".toList, "A".toList⟩]
    ∧ resolveSync sampleLib sampleClient "http://a http://b".toList
      = [⟨"http://a".toList, "A".toList⟩, ⟨"http://b".toList, "Website".toList⟩]
    ∧ parseLinks sampleLib sampleClient [1] "http://a http://b".toList
      ≠ resolveSync sampleLib sampleClient "http://a http://b".toList := by
  decide

/-- C2: `parseLinks` returns as many Links as the link pattern has matches, and the URLs
returned are the matched substrings, each as often as it is matched, whatever the HTTP client
does and whatever the order of delivery. -/
theorem parseLinks_one_link_per_match {U E : Type} (lib : NetLib U E) (client : HttpClient)
    (sched : List Nat) (text : Str) :
    (parseLinks lib client sched text).length = (FindAllString regexLinks text).length
    ∧ ((parseLinks lib client sched text).map Link.URL).Perm (FindAllString regexLinks text)
    ∧ (((parseLinks lib client sched text).map Link.URL : List Str) : Multiset Str)
        = ((FindAllString regexLinks text : List Str) : Multiset Str) := by
  have hp := parseLinks_perm lib client sched text
  have hu : ((parseLinks lib client sched text).map Link.URL).Perm
      (FindAllString regexLinks text) := by
    have := hp.map Link.URL
    rwa [resolveSync, linkTasks_urls] at this
  refine ⟨?_, hu, Multiset.coe_eq_coe.mpr hu⟩
  have := hu.length_eq
  simpa using this

/-- C3: a task whose link cannot be sanitized, whose request fails, whose response body cannot
be read, or whose body has no match of the title pattern, sends the Link of its match with the
title "Website". -/
theorem linkTask_fallback {U E : Type} (lib : NetLib U E) (client : HttpClient) (i : Nat)
    (link : Str)
    (h : (∃ e, sanitizeUrl lib link = .error e)
      ∨ ∃ s, sanitizeUrl lib link = .ok s
          ∧ (client i s = .getError ∨ client i s = .readError
              ∨ ∃ b, client i s = .body b ∧ FindAllSubmatch regexTitle b = [])) :
    (linkTask lib client i link).link = ⟨link, "Website".toList⟩ := by
  unfold linkTask
  rcases h with ⟨e, he⟩ | ⟨s, hs, hc | hc | ⟨b, hb, hm⟩⟩
  · rw [he]; rfl
  · rw [hs]; dsimp only; rw [hc]; rfl
  · rw [hs]; dsimp only; rw [hc]; rfl
  · rw [hs]; dsimp only; rw [hb]; dsimp only; rw [hm]; rfl

/-- C3 on the link `http://foo` of the test, whose page is "Foo site without title". -/
theorem linkTask_fallback_witness :
    FindAllSubmatch regexTitle "Foo site without title".toList = []
    ∧ (linkTask sampleLib sampleClient 0 "http://foo".toList).link
        = ⟨"http://foo".toList, "Website".toList⟩ :=
  ⟨by decide,
   linkTask_fallback sampleLib sampleClient 0 "http://foo".toList
     (Or.inr ⟨"http://foo".toList, rfl,
       Or.inr (Or.inr ⟨"Foo site without title".toList, by decide, by decide⟩)⟩)⟩

/-- C10: the URL of every Link is the matched substring itself, whatever the task met; the
link `http://торрент.рф` is requested in its ASCII form and reported as matched. -/
theorem parseLinks_url_is_match {U E : Type} (lib : NetLib U E) (client : HttpClient)
    (sched : List Nat) (text : Str) :
    (∀ (i : Nat) (link : Str), (linkTask lib client i link).link.URL = link)
    ∧ (∀ l ∈ parseLinks lib client sched text, l.URL ∈ FindAllString regexLinks text)
    ∧ (∀ n : Nat, n < (resolveSync lib client text).length →
        ((resolveSync lib client text).map Link.URL)[n]? = (FindAllString regexLinks text)[n]?)
    ∧ (parseLinks sampleLib client sched "http://торрент.рф".toList).map Link.URL
        = ["http://торрент.рф".toList]
    ∧ (linkTask sampleLib client 0 "http://торрент.рф".toList).gets
        = ["http://xn--e1aqbiajf.xn--p1ai".toList] := by
  refine ⟨fun i link => linkTask_url lib client i link, ?_, ?_, ?_, ?_⟩
  · intro l hl
    have hu : ((parseLinks lib client sched text).map Link.URL).Perm
        (FindAllString regexLinks text) := by
      have := (parseLinks_perm lib client sched text).map Link.URL
      rwa [resolveSync, linkTasks_urls] at this
    exact hu.subset (List.mem_map_of_mem Link.URL hl)
  · intro n _
    rw [resolveSync, linkTasks_urls]
  · have hm : FindAllString regexLinks "http://торрент.рф".toList
        = ["http://торрент.рф".toList] := by decide
    have hu : ((parseLinks sampleLib client sched "http://торрент.рф".toList).map
        Link.URL).Perm ["http://торрент.рф".toList] := by
      have := (parseLinks_perm sampleLib client sched "http://торрент.рф".toList).map Link.URL
      rwa [resolveSync, linkTasks_urls, hm] at this
    exact List.perm_singleton.mp hu
  · have hs : sanitizeUrl sampleLib "http://торрент.рф".toList
        = .ok "http://xn--e1aqbiajf.xn--p1ai".toList := rfl
    unfold linkTask
    rw [hs]
    dsimp only
    cases client 0 "http://xn--e1aqbiajf.xn--p1ai".toList with
    | getError => rfl
    | readError => rfl
    | body b =>
      dsimp only
      cases FindAllSubmatch regexTitle b <;> rfl

/-! ## Deduplication in `parseMentions` and `parseEmoticons` -/

theorem mapSet_nodup (m : List Str) (key : Str) (h : m.Nodup) : (mapSet m key).Nodup := by
  unfold mapSet
  split
  · exact h
  · rename_i hk
    exact List.Nodup.append h (List.nodup_singleton key) (by simpa using hk)

theorem mem_mapSet (m : List Str) (key v : Str) : v ∈ mapSet m key ↔ v ∈ m ∨ v = key := by
  unfold mapSet
  split
  · rename_i hk
    constructor
    · exact Or.inl
    · rintro (h | h)
      · exact h
      · subst h; exact hk
  · simp

theorem foldl_mapSet_spec (ms : List Match) (acc : List Str) (h : acc.Nodup) :
    (ms.foldl (fun m mt => mapSet m (mt.sub 1)) acc).Nodup
    ∧ ∀ v, v ∈ ms.foldl (fun m mt => mapSet m (mt.sub 1)) acc
        ↔ v ∈ acc ∨ v ∈ ms.map (fun mt => mt.sub 1) := by
  induction ms generalizing acc with
  | nil => simp [h]
  | cons a as ih =>
    obtain ⟨h1, h2⟩ := ih (mapSet acc (a.sub 1)) (mapSet_nodup acc _ h)
    refine ⟨h1, fun v => ?_⟩
    simp only [List.foldl_cons, h2, mem_mapSet, List.map_cons, List.mem_cons]
    tauto

theorem uniqueKeys_nodup (ms : List Match) : (uniqueKeys ms).Nodup :=
  (foldl_mapSet_spec ms [] List.nodup_nil).1

theorem mem_uniqueKeys (ms : List Match) (v : Str) :
    v ∈ uniqueKeys ms ↔ v ∈ ms.map (fun mt => mt.sub 1) := by
  have := (foldl_mapSet_spec ms [] List.nodup_nil).2 v
  simpa [uniqueKeys] using this

theorem drain_keys_spec (iter : List Nat) (ms : List Match) :
    (drain (uniqueKeys ms).length iter (uniqueKeys ms)).Nodup
    ∧ (∀ v, v ∈ drain (uniqueKeys ms).length iter (uniqueKeys ms)
        ↔ v ∈ ms.map (fun mt => mt.sub 1))
    ∧ (∀ v ∈ ms.map (fun mt => mt.sub 1),
        Multiset.count v ((drain (uniqueKeys ms).length iter (uniqueKeys ms) : List Str) :
          Multiset Str) = 1)
    ∧ (drain (uniqueKeys ms).length iter (uniqueKeys ms)).length
        = (ms.map (fun mt => mt.sub 1)).dedup.length := by
  have hp := drain_perm (uniqueKeys ms).length iter (uniqueKeys ms) rfl
  have hn : (drain (uniqueKeys ms).length iter (uniqueKeys ms)).Nodup :=
    hp.nodup_iff.mpr (uniqueKeys_nodup ms)
  have hm : ∀ v, v ∈ drain (uniqueKeys ms).length iter (uniqueKeys ms)
      ↔ v ∈ ms.map (fun mt => mt.sub 1) := fun v =>
    (hp.mem_iff).trans (mem_uniqueKeys ms v)
  refine ⟨hn, hm, ?_, ?_⟩
  · intro v hv
    rw [Multiset.coe_count]
    exact List.count_eq_one_of_mem hn ((hm v).mpr hv)
  · apply List.Perm.length_eq
    rw [List.perm_ext_iff_of_nodup hn (List.nodup_dedup _)]
    intro v
    rw [hm v, List.mem_dedup]

/-- C5: the lists returned by `parseMentions` and `parseEmoticons` hold no value twice: every
matched value is in the result exactly once, nothing else is, and the result is as long as
there are distinct matched values. -/
theorem parse_results_deduplicated (iter : List Nat) (text : Str) :
    ((parseMentions iter text).Nodup
      ∧ (∀ v ∈ (FindAllSubmatch regexMentions text).map (fun mt => mt.sub 1),
          Multiset.count v ((parseMentions iter text : List Str) : Multiset Str) = 1)
      ∧ (parseMentions iter text).length
          = ((FindAllSubmatch regexMentions text).map (fun mt => mt.sub 1)).dedup.length)
    ∧ ((parseEmoticons iter text).Nodup
      ∧ (∀ v ∈ (FindAllSubmatch regexEmoticons text).map (fun mt => mt.sub 1),
          Multiset.count v ((parseEmoticons iter text : List Str) : Multiset Str) = 1)
      ∧ (parseEmoticons iter text).length
          = ((FindAllSubmatch regexEmoticons text).map (fun mt => mt.sub 1)).dedup.length) := by
  obtain ⟨a1, _, a3, a4⟩ := drain_keys_spec iter (FindAllSubmatch regexMentions text)
  obtain ⟨b1, _, b3, b4⟩ := drain_keys_spec iter (FindAllSubmatch regexEmoticons text)
  exact ⟨⟨a1, a3, a4⟩, ⟨b1, b3, b4⟩⟩

/-- C9 fails on the code: the fragment part `(\#.+)?` of the link pattern runs to the end of
the line, so the match of a link with a fragment goes on through the blanks after it. -/
theorem regexLinks_fragment_runs_through_blanks :
    FindAllString regexLinks "see http://a.b/c#d and more".toList
      = ["http://a.b/c#d and more".toList]
    ∧ ' ' ∈ "http://a.b/c#d and more".toList
    ∧ FindAllString regexLinks "see http://a.b/c?q=1 and more".toList
      = ["http://a.b/c?q=1".toList] := by
  decide

/-! ## The matcher -/

theorem orElse_none_left (b : MatchResult) : orElse none b = b := rfl

theorem orElse_none_right (a : MatchResult) : orElse a none = a := by
  cases a <;> rfl

theorem orElse_of_isSome (a b : MatchResult) (h : a.isSome) : orElse a b = a := by
  cases a with
  | none => simp at h
  | some x => rfl

theorem orElse_eq_some (a b : MatchResult) (res : Str × Caps) (h : orElse a b = some res) :
    a = some res ∨ b = some res := by
  cases a with
  | none => exact Or.inr h
  | some x => exact Or.inl h

theorem run_cls_cons (p : Char → Bool) (x : Char) (xs : Str) (c : Caps) (k : Cont) :
    (Regex.cls p).run (x :: xs) c k = if p x then k xs c else none := rfl

theorem run_cls_nil (p : Char → Bool) (c : Caps) (k : Cont) :
    (Regex.cls p).run [] c k = none := rfl

theorem run_chr_cons (ch x : Char) (xs : Str) (c : Caps) (k : Cont) :
    (Regex.chr ch).run (x :: xs) c k = if x = ch then k xs c else none := by
  simp [Regex.chr, Regex.run]

theorem run_chr_nil (ch : Char) (c : Caps) (k : Cont) :
    (Regex.chr ch).run [] c k = none := rfl

theorem run_lit_append (w s : Str) (c : Caps) (k : Cont) :
    (Regex.lit w).run (w ++ s) c k = k s c := by
  induction w with
  | nil => rfl
  | cons x xs ih =>
    show (Regex.chr x).run (x :: (xs ++ s)) c (fun s1 c1 => (Regex.lit xs).run s1 c1 k) = k s c
    rw [run_chr_cons, if_pos rfl]
    exact ih

theorem run_lit_eq_some (w s : Str) (c : Caps) (k : Cont) (res : Str × Caps)
    (h : (Regex.lit w).run s c k = some res) : ∃ t, s = w ++ t ∧ k t c = some res := by
  induction w generalizing s with
  | nil => exact ⟨s, rfl, h⟩
  | cons x xs ih =>
    change (Regex.chr x).run s c (fun s1 c1 => (Regex.lit xs).run s1 c1 k) = some res at h
    cases s with
    | nil => simp [run_chr_nil] at h
    | cons y ys =>
      rw [run_chr_cons] at h
      split at h
      · rename_i hxy
        obtain ⟨t, ht, hk⟩ := ih ys h
        exact ⟨t, by rw [hxy, ht]; rfl, hk⟩
      · simp at h

/-- Whatever a match attempt returns was returned by its continuation, called on a final
segment of the input. -/
theorem starLoop_some_suffix (body : Str → Caps → Cont → MatchResult) (g : Bool)
    (hb : ∀ s c k res, body s c k = some res → ∃ s1 c1, s1 <:+ s ∧ k s1 c1 = some res)
    (n : Nat) (s : Str) (c : Caps) (k : Cont) (res : Str × Caps)
    (h : starLoop body g n s c k = some res) :
    ∃ s1 c1, s1 <:+ s ∧ k s1 c1 = some res := by
  induction n generalizing s c res with
  | zero => exact ⟨s, c, List.suffix_refl s, h⟩
  | succ n ih =>
    simp only [starLoop] at h
    have hmore : ∀ res, body s c (fun s1 c1 =>
        if s1.length < s.length then starLoop body g n s1 c1 k else none) = some res →
        ∃ s1 c1, s1 <:+ s ∧ k s1 c1 = some res := by
      intro res hres
      obtain ⟨s1, c1, hs1, hk1⟩ := hb _ _ _ _ hres
      split at hk1
      · obtain ⟨s2, c2, hs2, hk2⟩ := ih s1 c1 _ hk1
        exact ⟨s2, c2, hs2.trans hs1, hk2⟩
      · simp at hk1
    cases g with
    | true =>
      simp only [if_true] at h
      rcases orElse_eq_some _ _ _ h with h1 | h1
      · exact hmore res h1
      · exact ⟨s, c, List.suffix_refl s, h1⟩
    | false =>
      simp only [Bool.false_eq_true, if_false] at h
      rcases orElse_eq_some _ _ _ h with h1 | h1
      · exact ⟨s, c, List.suffix_refl s, h1⟩
      · exact hmore res h1

theorem run_some_suffix (r : Regex) : ∀ (s : Str) (c : Caps) (k : Cont) (res : Str × Caps),
    r.run s c k = some res → ∃ s1 c1, s1 <:+ s ∧ k s1 c1 = some res := by
  induction r with
  | eps => intro s c k res h; exact ⟨s, c, List.suffix_refl s, h⟩
  | cls p =>
    intro s c k res h
    cases s with
    | nil => simp [Regex.run] at h
    | cons x xs =>
      rw [run_cls_cons] at h
      split at h
      · exact ⟨xs, c, List.suffix_cons x xs, h⟩
      · simp at h
  | seq a b iha ihb =>
    intro s c k res h
    simp only [Regex.run] at h
    obtain ⟨s1, c1, hs1, hk1⟩ := iha _ _ _ _ h
    obtain ⟨s2, c2, hs2, hk2⟩ := ihb _ _ _ _ hk1
    exact ⟨s2, c2, hs2.trans hs1, hk2⟩
  | alt a b iha ihb =>
    intro s c k res h
    simp only [Regex.run] at h
    rcases orElse_eq_some _ _ _ h with h1 | h1
    · exact iha _ _ _ _ h1
    · exact ihb _ _ _ _ h1
  | star g r ih =>
    intro s c k res h
    simp only [Regex.run] at h
    exact starLoop_some_suffix _ g (fun s c k res h => ih s c k res h) _ s c k res h
  | group n r ih =>
    intro s c k res h
    simp only [Regex.run] at h
    obtain ⟨s1, c1, hs1, hk1⟩ := ih _ _ _ _ h
    exact ⟨s1, _, hs1, hk1⟩

theorem matchAt_suffix (r : Regex) (s : Str) (p : Str × Caps) (h : r.matchAt s = some p) :
    p.1 <:+ s := by
  obtain ⟨s1, c1, hs1, hk1⟩ := run_some_suffix r s [] _ p h
  simp only [Option.some.injEq] at hk1
  rw [← hk1]
  exact hs1

/-! ## Successive matches -/

theorem search_cons_of_none (r : Regex) (x : Char) (xs : Str)
    (h : r.matchAt (x :: xs) = none) : r.search (x :: xs) = r.search xs := by
  simp [Regex.search, h]

theorem search_cons_of_some (r : Regex) (x : Char) (xs : Str) (p : Str × Caps)
    (h : r.matchAt (x :: xs) = some p) : r.search (x :: xs) = some ⟨x :: xs, p.1, p.2⟩ := by
  simp [Regex.search, h]

theorem matchAt_nil_of_consumes (r : Regex) (hr : ConsumesInput r) : r.matchAt [] = none := by
  cases h : r.matchAt [] with
  | none => rfl
  | some p => exact absurd (hr [] p h) (by simp)

theorem search_nil_of_consumes (r : Regex) (hr : ConsumesInput r) : r.search [] = none := by
  simp [Regex.search, matchAt_nil_of_consumes r hr]

theorem search_some_spec (r : Regex) (hr : ConsumesInput r) (s : Str) (m : Match)
    (h : r.search s = some m) :
    m.start <:+ s ∧ r.matchAt m.start = some (m.rest, m.caps)
      ∧ m.rest.length < m.start.length := by
  induction s with
  | nil => simp [search_nil_of_consumes r hr] at h
  | cons x xs ih =>
    cases hm : r.matchAt (x :: xs) with
    | none =>
      rw [search_cons_of_none r x xs hm] at h
      obtain ⟨h1, h2, h3⟩ := ih h
      exact ⟨h1.trans (List.suffix_cons x xs), h2, h3⟩
    | some p =>
      rw [search_cons_of_some r x xs p hm] at h
      simp only [Option.some.injEq] at h
      subst h
      exact ⟨List.suffix_refl _, hm, hr _ _ hm⟩

theorem allMatchesAux_step (r : Regex) (hr : ConsumesInput r) (fuel : Nat) (s : Str)
    (prev : Option Nat) :
    r.allMatchesAux (fuel + 1) s prev =
      match r.search s with
      | none => []
      | some m => m :: r.allMatchesAux fuel m.rest (some m.rest.length) := by
  rw [Regex.allMatchesAux]
  cases h : r.search s with
  | none => rfl
  | some m =>
    obtain ⟨h1, _, h3⟩ := search_some_spec r hr s m h
    have hlen : m.rest.length ≠ s.length := by
      have := h1.length_le
      omega
    simp [hlen]

theorem allMatchesAux_fuel (r : Regex) (hr : ConsumesInput r) (f1 f2 : Nat) (s : Str)
    (p1 p2 : Option Nat) (h1 : s.length < f1) (h2 : s.length < f2) :
    r.allMatchesAux f1 s p1 = r.allMatchesAux f2 s p2 := by
  induction f1 generalizing f2 s p1 p2 with
  | zero => omega
  | succ n ih =>
    cases f2 with
    | zero => omega
    | succ k =>
      rw [allMatchesAux_step r hr, allMatchesAux_step r hr]
      cases h : r.search s with
      | none => rfl
      | some m =>
        obtain ⟨a1, _, a3⟩ := search_some_spec r hr s m h
        have := a1.length_le
        simp only
        rw [ih k m.rest _ _ (by omega) (by omega)]

theorem allMatches_of_search (r : Regex) (hr : ConsumesInput r) (s : Str) :
    r.allMatches s =
      match r.search s with
      | none => []
      | some m => m :: r.allMatches m.rest := by
  rw [Regex.allMatches, allMatchesAux_step r hr]
  cases h : r.search s with
  | none => rfl
  | some m =>
    obtain ⟨a1, _, a3⟩ := search_some_spec r hr s m h
    have := a1.length_le
    simp only [Regex.allMatches]
    rw [allMatchesAux_fuel r hr s.length (m.rest.length + 1) m.rest _ none (by omega) (by omega)]

theorem allMatches_nil (r : Regex) (hr : ConsumesInput r) : r.allMatches [] = [] := by
  rw [allMatches_of_search r hr, search_nil_of_consumes r hr]

theorem allMatches_cons_of_none (r : Regex) (hr : ConsumesInput r) (x : Char) (xs : Str)
    (h : r.matchAt (x :: xs) = none) : r.allMatches (x :: xs) = r.allMatches xs := by
  rw [allMatches_of_search r hr, allMatches_of_search r hr xs, search_cons_of_none r x xs h]

theorem allMatches_cons_of_some (r : Regex) (hr : ConsumesInput r) (x : Char) (xs : Str)
    (p : Str × Caps) (h : r.matchAt (x :: xs) = some p) :
    r.allMatches (x :: xs) = ⟨x :: xs, p.1, p.2⟩ :: r.allMatches p.1 := by
  rw [allMatches_of_search r hr, search_cons_of_some r x xs p h]

/-- Every match listed is a match of the pattern at some position of the text. -/
theorem allMatches_sound (r : Regex) (hr : ConsumesInput r) (s : Str) (m : Match)
    (h : m ∈ r.allMatches s) :
    m.start <:+ s ∧ r.matchAt m.start = some (m.rest, m.caps) := by
  obtain ⟨n, hn⟩ : ∃ n, s.length = n := ⟨_, rfl⟩
  induction n using Nat.strong_induction_on generalizing s with
  | _ n ih =>
    cases s with
    | nil => simp [allMatches_nil r hr] at h
    | cons x xs =>
      cases hm : r.matchAt (x :: xs) with
      | none =>
        rw [allMatches_cons_of_none r hr x xs hm] at h
        obtain ⟨h1, h2⟩ := ih xs.length (by simp [← hn]) xs h rfl
        exact ⟨h1.trans (List.suffix_cons x xs), h2⟩
      | some p =>
        rw [allMatches_cons_of_some r hr x xs p hm] at h
        rcases List.mem_cons.mp h with h | h
        · subst h
          exact ⟨List.suffix_refl _, hm⟩
        · have hlt := hr _ _ hm
          have hsuf := matchAt_suffix r _ p hm
          obtain ⟨h1, h2⟩ := ih p.1.length (by omega) p.1 h rfl
          exact ⟨h1.trans hsuf, h2⟩

/-- A match of the pattern at some position of the text is listed, provided no earlier match
runs into it: a match that starts before the position ends at or before it. -/
theorem allMatches_complete (r : Regex) (hr : ConsumesInput r) (target : Str)
    (p : Str × Caps) (hp : r.matchAt target = some p)
    (hclear : ∀ (pre : Str) (q : Str × Caps), pre ≠ [] → r.matchAt (pre ++ target) = some q →
      ∃ pre1, q.1 = pre1 ++ target)
    (pre : Str) : (⟨target, p.1, p.2⟩ : Match) ∈ r.allMatches (pre ++ target) := by
  obtain ⟨n, hn⟩ : ∃ n, pre.length = n := ⟨_, rfl⟩
  induction n using Nat.strong_induction_on generalizing pre with
  | _ n ih =>
    cases pre with
    | nil =>
      cases target with
      | nil => exact absurd (hr _ _ hp) (by simp)
      | cons t ts =>
        rw [List.nil_append, allMatches_cons_of_some r hr t ts p hp]
        exact List.mem_cons_self _ _
    | cons x xs =>
      cases hm : r.matchAt (x :: xs ++ target) with
      | none =>
        rw [List.cons_append] at hm ⊢
        rw [allMatches_cons_of_none r hr x _ hm]
        exact ih xs.length (by simp [← hn]) xs rfl
      | some q =>
        obtain ⟨pre1, hq⟩ := hclear (x :: xs) q (by simp) hm
        have hlt := hr _ _ hm
        rw [List.cons_append] at hm
        rw [List.cons_append, allMatches_cons_of_some r hr x _ q hm]
        apply List.mem_cons_of_mem
        rw [hq]
        apply ih pre1.length _ pre1 rfl
        rw [hq] at hlt
        simp only [List.length_append, List.length_cons] at hlt
        simp only [← hn, List.length_cons]
        omega

/-! ## Runs of a character class -/

theorem take_length_sub_dropWhile (p : Char → Bool) (l : Str) :
    l.take (l.length - (l.dropWhile p).length) = l.takeWhile p := by
  have h := List.takeWhile_append_dropWhile p l
  have hlen : l.length - (l.dropWhile p).length = (l.takeWhile p).length := by
    have := congrArg List.length h
    simp only [List.length_append] at this
    omega
  rw [hlen]
  calc l.take (l.takeWhile p).length
      = (l.takeWhile p ++ l.dropWhile p).take (l.takeWhile p).length := by rw [h]
    _ = l.takeWhile p := List.take_left' rfl

theorem takeWhile_append_of_all (p : Char → Bool) (v post : Str)
    (hv : ∀ c ∈ v, p c = true) (hpost : ∀ c, post.head? = some c → p c = false) :
    (v ++ post).takeWhile p = v ∧ (v ++ post).dropWhile p = post := by
  induction v with
  | nil =>
    cases post with
    | nil => simp
    | cons y ys =>
      have := hpost y rfl
      simp [List.takeWhile, List.dropWhile, this]
  | cons x xs ih =>
    have hx : p x = true := hv x (List.mem_cons_self x xs)
    obtain ⟨h1, h2⟩ := ih (fun c hc => hv c (List.mem_cons_of_mem x hc))
    simp [List.takeWhile, List.dropWhile, hx, h1, h2]

theorem dropWhile_append_cons_of_not (p : Char → Bool) (a : Str) (b : Char) (c : Str)
    (hb : p b = false) : (a ++ b :: c).dropWhile p = a.dropWhile p ++ b :: c := by
  induction a with
  | nil => simp [List.dropWhile, hb]
  | cons x xs ih =>
    cases hx : p x
    · simp [List.dropWhile, hx]
    · simp [List.dropWhile, hx, ih]

theorem head_dropWhile_not (p : Char → Bool) (l : Str) (c : Char)
    (h : (l.dropWhile p).head? = some c) : p c = false := by
  induction l with
  | nil => simp at h
  | cons x xs ih =>
    cases hx : p x
    · simp [List.dropWhile, hx] at h
      rw [← h]; exact hx
    · simp [List.dropWhile, hx] at h
      exact ih h

theorem starLoop_cls_greedy (p : Char → Bool) (k : Cont)
    (hk : ∀ s c, (k s c).isSome = true) (n : Nat) (s : Str) (c : Caps) (hn : s.length ≤ n) :
    starLoop (fun s1 c1 k1 => (Regex.cls p).run s1 c1 k1) true n s c k
      = k (s.dropWhile p) c := by
  induction n generalizing s with
  | zero =>
    have : s = [] := List.length_eq_zero.mp (Nat.le_zero.mp hn)
    subst this
    rfl
  | succ n ih =>
    cases s with
    | nil => simp [starLoop, run_cls_nil, orElse_none_left]
    | cons x xs =>
      have hxs : xs.length ≤ n := by simpa using hn
      simp only [starLoop, run_cls_cons, if_true]
      cases hx : p x
      · simp [List.dropWhile, hx, orElse_none_left]
      · simp only [if_true, List.length_cons, Nat.lt_succ_self, List.dropWhile, hx]
        rw [ih xs hxs]
        exact orElse_of_isSome _ _ (hk _ _)

theorem run_upTo_cls (p : Char → Bool) (k : Cont)
    (hk : ∀ x xs c, p x = true → k (x :: xs) c = none) (n : Nat) (s : Str) (c : Caps) :
    (Regex.upTo (.cls p) n).run s c k
      = if (s.takeWhile p).length ≤ n then k (s.dropWhile p) c else none := by
  induction n generalizing s with
  | zero =>
    cases s with
    | nil => simp [Regex.upTo, Regex.run]
    | cons x xs =>
      cases hx : p x
      · simp [Regex.upTo, Regex.run, List.takeWhile, List.dropWhile, hx]
      · simp [Regex.upTo, Regex.run, List.takeWhile, hx, hk x xs c hx]
  | succ n ih =>
    cases s with
    | nil => simp [Regex.upTo, Regex.opt, Regex.run, orElse_none_left]
    | cons x xs =>
      cases hx : p x
      · simp [Regex.upTo, Regex.opt, Regex.run, List.takeWhile, List.dropWhile, hx,
          orElse_none_left]
      · simp only [Regex.upTo, Regex.opt, Regex.run, hx, if_true, hk x xs c hx,
          orElse_none_right, List.takeWhile, List.dropWhile, List.length_cons,
          Nat.add_le_add_iff_right]
        exact ih xs

/-! ## The mention pattern -/

theorem run_seq (a b : Regex) (s : Str) (c : Caps) (k : Cont) :
    (Regex.seq a b).run s c k = a.run s c (fun s1 c1 => b.run s1 c1 k) := rfl

theorem run_alt (a b : Regex) (s : Str) (c : Caps) (k : Cont) :
    (Regex.alt a b).run s c k = orElse (a.run s c k) (b.run s c k) := rfl

theorem run_eps (s : Str) (c : Caps) (k : Cont) : Regex.eps.run s c k = k s c := rfl

theorem run_star (g : Bool) (r : Regex) (s : Str) (c : Caps) (k : Cont) :
    (Regex.star g r).run s c k
      = starLoop (fun s1 c1 k1 => r.run s1 c1 k1) g s.length s c k := rfl

theorem run_group (n : Nat) (r : Regex) (s : Str) (c : Caps) (k : Cont) :
    (Regex.group n r).run s c k
      = r.run s c (fun s1 c1 => k s1 ((n, s.take (s.length - s1.length)) :: c1)) := rfl

theorem matchAt_regexMentions_nil : regexMentions.matchAt [] = none := rfl

theorem matchAt_regexMentions_cons (x : Char) (s1 : Str) :
    regexMentions.matchAt (x :: s1)
      = if x = '@' ∧ s1.takeWhile isWord ≠ [] then
          some (s1.dropWhile isWord, [(1, s1.takeWhile isWord)])
        else none := by
  unfold regexMentions Regex.matchAt
  simp only [run_seq, run_group, run_star, Regex.plus]
  rw [run_chr_cons]
  by_cases hx : x = '@'
  · simp only [hx, if_true, true_and]
    cases s1 with
    | nil => simp [run_cls_nil]
    | cons y s2 =>
      rw [run_cls_cons]
      cases hy : isWord y
      · simp [List.takeWhile, hy]
      · simp only [if_true]
        rw [starLoop_cls_greedy isWord _ ?_ _ _ _ (Nat.le_refl _)]
        swap
        · intro _ _; rfl
        have h1 : (y :: s2).dropWhile isWord = s2.dropWhile isWord := by
          simp [List.dropWhile, hy]
        have h2 := take_length_sub_dropWhile isWord (y :: s2)
        rw [h1] at h2
        rw [h2, h1]
        simp [List.takeWhile, hy]
  · simp [hx]

theorem regexMentions_consumes : ConsumesInput regexMentions := by
  intro s p h
  cases s with
  | nil => simp [matchAt_regexMentions_nil] at h
  | cons x s1 =>
    rw [matchAt_regexMentions_cons] at h
    split at h
    · simp only [Option.some.injEq] at h
      rw [← h]
      have := (List.dropWhile_suffix isWord (l := s1)).length_le
      simp only [List.length_cons]
      omega
    · simp at h

theorem matchAt_regexMentions_run (v post : Str) (hv : v ≠ [])
    (hw : ∀ c ∈ v, isWord c = true) (hpost : ∀ c, post.head? = some c → isWord c = false) :
    regexMentions.matchAt ('@' :: v ++ post) = some (post, [(1, v)]) := by
  obtain ⟨h1, h2⟩ := takeWhile_append_of_all isWord v post hw hpost
  rw [List.cons_append, matchAt_regexMentions_cons, h1, h2]
  simp [hv]

theorem allMatches_regexMentions_run (v post : Str) (hv : v ≠ [])
    (hw : ∀ c ∈ v, isWord c = true) (hpost : ∀ c, post.head? = some c → isWord c = false) :
    regexMentions.allMatches ('@' :: v ++ post)
      = ⟨'@' :: v ++ post, post, [(1, v)]⟩ :: regexMentions.allMatches post := by
  have h := matchAt_regexMentions_run v post hv hw hpost
  rw [List.cons_append] at h ⊢
  exact allMatches_cons_of_some _ regexMentions_consumes _ _ _ h

theorem isWord_at : isWord '@' = false := by decide

theorem mem_parseMentions (iter : List Nat) (text v : Str) :
    v ∈ parseMentions iter text
      ↔ v ∈ (FindAllSubmatch regexMentions text).map (fun mt => mt.sub 1) :=
  (drain_keys_spec iter (FindAllSubmatch regexMentions text)).2.1 v

theorem parseMentions_iff_run (iter : List Nat) (text v : Str) :
    v ∈ parseMentions iter text ↔ IsMentionRun text v := by
  rw [mem_parseMentions]
  constructor
  · intro h
    obtain ⟨m, hm, hv⟩ := List.mem_map.mp h
    obtain ⟨⟨pre, hpre⟩, hmatch⟩ := allMatches_sound _ regexMentions_consumes text m hm
    cases hs : m.start with
    | nil => rw [hs, matchAt_regexMentions_nil] at hmatch; simp at hmatch
    | cons x s1 =>
      rw [hs, matchAt_regexMentions_cons] at hmatch
      split at hmatch
      · rename_i hc
        simp only [Option.some.injEq, Prod.mk.injEq] at hmatch
        have hv2 : v = s1.takeWhile isWord := by
          rw [← hv]
          simp [Match.sub, ← hmatch.2]
        refine ⟨pre, s1.dropWhile isWord, ?_, ?_, ?_, ?_⟩
        · rw [← hpre, hs, hc.1, hv2]
          simp [List.takeWhile_append_dropWhile]
        · rw [hv2]; exact hc.2
        · intro c hcv
          rw [hv2] at hcv
          exact (List.mem_takeWhile_imp hcv)
        · intro c hcp
          exact head_dropWhile_not isWord s1 c hcp
      · simp at hmatch
  · rintro ⟨pre, post, htext, hv, hw, hpost⟩
    have hp := matchAt_regexMentions_run v post hv hw hpost
    have hmem := allMatches_complete regexMentions regexMentions_consumes ('@' :: v ++ post)
      (post, [(1, v)]) hp ?_ pre
    · rw [htext]
      refine List.mem_map.mpr ⟨⟨'@' :: v ++ post, post, [(1, v)]⟩, ?_, ?_⟩
      · simpa [FindAllSubmatch] using hmem
      · simp [Match.sub]
    · intro pre0 q hne hq
      cases pre0 with
      | nil => exact absurd rfl hne
      | cons x xs =>
        rw [List.cons_append, matchAt_regexMentions_cons] at hq
        split at hq
        · simp only [Option.some.injEq] at hq
          refine ⟨xs.dropWhile isWord, ?_⟩
          rw [← hq]
          simp only [List.cons_append]
          exact dropWhile_append_cons_of_not isWord xs '@' (v ++ post) isWord_at
        · simp at hq

theorem parseMentions_two_runs (iter : List Nat) (a b : Str) (ha : a ≠ []) (hb : b ≠ [])
    (hwa : ∀ c ∈ a, isWord c = true) (hwb : ∀ c ∈ b, isWord c = true) (v : Str) :
    v ∈ parseMentions iter ('@' :: a ++ '@' :: b) ↔ v = a ∨ v = b := by
  rw [mem_parseMentions]
  have h1 := allMatches_regexMentions_run a ('@' :: b) ha hwa
    (by intro c hc; simp at hc; rw [← hc]; exact isWord_at)
  have h2 := allMatches_regexMentions_run b [] hb hwb (by simp)
  rw [List.append_nil] at h2
  rw [FindAllSubmatch, h1, h2, allMatches_nil _ regexMentions_consumes]
  simp [Match.sub]

theorem parseMentions_double_at (iter : List Nat) (a : Str) (ha : a ≠ [])
    (hwa : ∀ c ∈ a, isWord c = true) (v : Str) :
    v ∈ parseMentions iter ('@' :: '@' :: a) ↔ v = a := by
  rw [mem_parseMentions]
  have h0 : regexMentions.matchAt ('@' :: '@' :: a) = none := by
    rw [matchAt_regexMentions_cons]
    simp [List.takeWhile, isWord_at]
  have h2 := allMatches_regexMentions_run a [] ha hwa (by simp)
  rw [List.append_nil] at h2
  rw [FindAllSubmatch, allMatches_cons_of_none _ regexMentions_consumes _ _ h0, h2,
    allMatches_nil _ regexMentions_consumes]
  simp [Match.sub]

/-- C6: the values returned by `parseMentions` are exactly the maximal non-empty runs of
word characters that come right after an `@`; so `@a@b` yields `a` and `b`, `@@a` yields `a`,
and `@SDlds@asd` yields `SDlds` and `asd`. -/
theorem parseMentions_runs_after_at (iter : List Nat) (text : Str) :
    (∀ v, v ∈ parseMentions iter text ↔ IsMentionRun text v)
    ∧ (∀ a b : Str, a ≠ [] → b ≠ [] → (∀ c ∈ a, isWord c = true) → (∀ c ∈ b, isWord c = true) →
        ∀ v, v ∈ parseMentions iter ('@' :: a ++ '@' :: b) ↔ v = a ∨ v = b)
    ∧ (∀ a : Str, a ≠ [] → (∀ c ∈ a, isWord c = true) →
        ∀ v, v ∈ parseMentions iter ('@' :: '@' :: a) ↔ v = a)
    ∧ (∀ v, v ∈ parseMentions iter "@SDlds@asd".toList
        ↔ v = "SDlds".toList ∨ v = "asd".toList) := by
  refine ⟨fun v => parseMentions_iff_run iter text v,
    fun a b ha hb hwa hwb v => parseMentions_two_runs iter a b ha hb hwa hwb v,
    fun a ha hwa v => parseMentions_double_at iter a ha hwa v, fun v => ?_⟩
  exact parseMentions_two_runs iter "SDlds".toList "asd".toList (by decide) (by decide)
    (by decide) (by decide) v

/-! ## The emoticon pattern -/

theorem isWord_ne_close (x : Char) (h : isWord x = true) : x ≠ ')' := by
  intro hx
  subst hx
  exact absurd h (by decide)

theorem isWord_open : isWord '(' = false := by decide

theorem isWord_close : isWord ')' = false := by decide

theorem matchAt_regexEmoticons_nil : regexEmoticons.matchAt [] = none := rfl

theorem matchAt_regexEmoticons_cons (x : Char) (s1 : Str) :
    regexEmoticons.matchAt (x :: s1)
      = if x = '(' ∧ 1 ≤ (s1.takeWhile isWord).length ∧ (s1.takeWhile isWord).length ≤ 15 then
          match s1.dropWhile isWord with
          | [] => none
          | y :: rest => if y = ')' then some (rest, [(1, s1.takeWhile isWord)]) else none
        else none := by
  unfold regexEmoticons Regex.matchAt Regex.rep
  simp only [run_seq, run_group, Regex.copies, run_eps]
  rw [run_chr_cons]
  by_cases hx : x = '('
  · simp only [hx, if_true, true_and]
    cases s1 with
    | nil => simp [run_cls_nil]
    | cons y s2 =>
      rw [run_cls_cons]
      cases hy : isWord y
      · simp [List.takeWhile, hy]
      · simp only [if_true]
        rw [run_upTo_cls isWord _ ?_]
        swap
        · intro z zs c hz
          rw [run_chr_cons, if_neg (isWord_ne_close z hz)]
        have h1 : (y :: s2).dropWhile isWord = s2.dropWhile isWord := by
          simp [List.dropWhile, hy]
        have h2 := take_length_sub_dropWhile isWord (y :: s2)
        rw [h1] at h2
        have h3 : (y :: s2).takeWhile isWord = y :: s2.takeWhile isWord := by
          simp [List.takeWhile, hy]
        rw [h1, h3]
        by_cases hlen : (s2.takeWhile isWord).length ≤ 15 - 1
        · have hlen2 : 1 ≤ (y :: s2.takeWhile isWord).length
              ∧ (y :: s2.takeWhile isWord).length ≤ 15 := by
            simp only [List.length_cons]; omega
          rw [if_pos hlen, if_pos hlen2]
          cases hd : s2.dropWhile isWord with
          | nil => simp [run_chr_nil]
          | cons z rest =>
            rw [run_chr_cons]
            rw [hd] at h2
            rw [h2, h3]
        · have hlen2 : ¬ (1 ≤ (y :: s2.takeWhile isWord).length
              ∧ (y :: s2.takeWhile isWord).length ≤ 15) := by
            simp only [List.length_cons]; omega
          rw [if_neg hlen, if_neg hlen2]
  · simp [hx]

theorem matchAt_regexEmoticons_some (s : Str) (q : Str × Caps)
    (h : regexEmoticons.matchAt s = some q) :
    ∃ e : Str, s = '(' :: e ++ ')' :: q.1 ∧ q.2 = [(1, e)] ∧ 1 ≤ e.length ∧ e.length ≤ 15
      ∧ ∀ c ∈ e, isWord c = true := by
  cases s with
  | nil => simp [matchAt_regexEmoticons_nil] at h
  | cons x s1 =>
    rw [matchAt_regexEmoticons_cons] at h
    split at h
    · rename_i hc
      split at h
      · simp at h
      · rename_i y rest hd
        split at h
        · rename_i hy
          simp only [Option.some.injEq] at h
          subst h
          refine ⟨s1.takeWhile isWord, ?_, rfl, hc.2.1, hc.2.2,
            fun c hcv => List.mem_takeWhile_imp hcv⟩
          have := List.takeWhile_append_dropWhile isWord s1
          rw [hd, hy] at this
          rw [hc.1]
          simp only [List.cons_append, this]
        · simp at h
    · simp at h

theorem matchAt_regexEmoticons_occurrence (e post : Str) (h1 : 1 ≤ e.length)
    (h15 : e.length ≤ 15) (hw : ∀ c ∈ e, isWord c = true) :
    regexEmoticons.matchAt ('(' :: e ++ ')' :: post) = some (post, [(1, e)]) := by
  obtain ⟨a1, a2⟩ := takeWhile_append_of_all isWord e (')' :: post) hw
    (by intro c hc; simp at hc; rw [← hc]; exact isWord_close)
  rw [List.cons_append, matchAt_regexEmoticons_cons, a1, a2]
  simp [h1, h15]

theorem regexEmoticons_consumes : ConsumesInput regexEmoticons := by
  intro s p h
  obtain ⟨e, hs, _, _, _, _⟩ := matchAt_regexEmoticons_some s p h
  rw [hs]
  simp only [List.cons_append, List.length_cons, List.length_append]
  omega

theorem mem_parseEmoticons (iter : List Nat) (text v : Str) :
    v ∈ parseEmoticons iter text
      ↔ v ∈ (FindAllSubmatch regexEmoticons text).map (fun mt => mt.sub 1) :=
  (drain_keys_spec iter (FindAllSubmatch regexEmoticons text)).2.1 v

theorem parseEmoticons_of_no_match (iter : List Nat) (text : Str)
    (h : FindAllSubmatch regexEmoticons text = []) : parseEmoticons iter text = [] := by
  simp [parseEmoticons, h, uniqueKeys, drain]

theorem parseEmoticons_iff_occurrence (iter : List Nat) (text e : Str) :
    e ∈ parseEmoticons iter text ↔ IsEmoticon text e := by
  rw [mem_parseEmoticons]
  constructor
  · intro h
    obtain ⟨m, hm, hv⟩ := List.mem_map.mp h
    obtain ⟨⟨pre, hpre⟩, hmatch⟩ := allMatches_sound _ regexEmoticons_consumes text m hm
    obtain ⟨e0, hs, hcaps, h1, h15, hw⟩ := matchAt_regexEmoticons_some _ _ hmatch
    have he : e = e0 := by
      rw [← hv]
      simp only [Match.sub]
      simp only at hcaps
      simp [hcaps]
    subst he
    exact ⟨h1, h15, hw, pre, m.rest, by rw [← hpre, hs]; simp⟩
  · rintro ⟨h1, h15, hw, pre, post, htext⟩
    have hp := matchAt_regexEmoticons_occurrence e post h1 h15 hw
    have hmem := allMatches_complete regexEmoticons regexEmoticons_consumes
      ('(' :: e ++ ')' :: post) (post, [(1, e)]) hp ?_ pre
    · rw [htext]
      refine List.mem_map.mpr ⟨⟨'(' :: e ++ ')' :: post, post, [(1, e)]⟩, ?_, ?_⟩
      · simpa [FindAllSubmatch] using hmem
      · simp [Match.sub]
    · intro pre0 q hne hq
      obtain ⟨e1, hs, _, _, _, hw1⟩ := matchAt_regexEmoticons_some _ _ hq
      cases pre0 with
      | nil => exact absurd rfl hne
      | cons x xs =>
        simp only [List.cons_append, List.cons.injEq] at hs
        have hd := congrArg (List.dropWhile isWord) hs.2
        rw [dropWhile_append_cons_of_not isWord xs '(' _ isWord_open,
          (takeWhile_append_of_all isWord e1 (')' :: q.1) hw1
            (by intro c hc; simp at hc; rw [← hc]; exact isWord_close)).2] at hd
        cases hx : xs.dropWhile isWord with
        | nil =>
          rw [hx] at hd
          simp at hd
        | cons z zs =>
          rw [hx] at hd
          simp only [List.cons_append, List.cons.injEq] at hd
          exact ⟨zs, by rw [← hd.2]; simp⟩

theorem allMatches_regexEmoticons_long (w : Str) (hw : ∀ c ∈ w, isWord c = true)
    (hlen : 16 ≤ w.length) : regexEmoticons.allMatches ('(' :: w ++ [')']) = [] := by
  apply List.eq_nil_iff_forall_not_mem.mpr
  intro m hm
  obtain ⟨⟨pre, hpre⟩, hmatch⟩ := allMatches_sound _ regexEmoticons_consumes _ m hm
  obtain ⟨e0, hs, _, _, h15, hw0⟩ := matchAt_regexEmoticons_some _ _ hmatch
  rw [hs] at hpre
  cases pre with
  | nil =>
    simp only [List.nil_append, List.cons_append, List.cons.injEq, true_and] at hpre
    have ht := congrArg (List.takeWhile isWord) hpre
    rw [(takeWhile_append_of_all isWord e0 (')' :: m.rest) hw0
        (by intro c hc; simp at hc; rw [← hc]; exact isWord_close)).1,
      (takeWhile_append_of_all isWord w [')'] hw
        (by intro c hc; simp at hc; rw [← hc]; exact isWord_close)).1] at ht
    rw [ht] at h15
    omega
  | cons x xs =>
    simp only [List.cons_append, List.cons.injEq] at hpre
    have hmem : '(' ∈ w ++ [')'] := by
      rw [← hpre.2]
      simp
    rcases List.mem_append.mp hmem with h | h
    · exact absurd (hw _ h) (by rw [isWord_open]; simp)
    · simp at h

/-- C7: on a text `(w)` with `w` made of word characters, `parseEmoticons` returns `w` alone
when `w` has 1 to 15 characters and nothing when it has 16 or more. -/
theorem parseEmoticons_length_bound (iter : List Nat) (w : Str)
    (hw : ∀ c ∈ w, isWord c = true) :
    (1 ≤ w.length → w.length ≤ 15 → parseEmoticons iter ('(' :: w ++ [')']) = [w])
    ∧ (16 ≤ w.length → parseEmoticons iter ('(' :: w ++ [')']) = []) := by
  constructor
  · intro h1 h15
    have hp := matchAt_regexEmoticons_occurrence w [] h1 h15 hw
    rw [List.cons_append] at hp
    have hall := allMatches_cons_of_some _ regexEmoticons_consumes _ _ _ hp
    rw [allMatches_nil _ regexEmoticons_consumes] at hall
    simp [parseEmoticons, FindAllSubmatch, hall, uniqueKeys, mapSet, drain, Match.sub]
  · intro h16
    exact parseEmoticons_of_no_match iter _ (allMatches_regexEmoticons_long w hw h16)

/-- C7 on the emoticon of the test that is too long, and on runs of 15 and 16 characters. -/
theorem parseEmoticons_length_bound_witness :
    (∀ c ∈ "morethanfifteencharactersemoticon".toList, isWord c = true)
    ∧ parseEmoticons [] "(morethanfifteencharactersemoticon)".toList = []
    ∧ parseEmoticons [] "(123456789012345)".toList = ["123456789012345".toList]
    ∧ parseEmoticons [] "(1234567890123456)".toList = [] :=
  ⟨by decide,
   (parseEmoticons_length_bound [] "morethanfifteencharactersemoticon".toList
      (by decide)).2 (by decide),
   (parseEmoticons_length_bound [] "123456789012345".toList (by decide)).1
      (by decide) (by decide),
   (parseEmoticons_length_bound [] "1234567890123456".toList (by decide)).2 (by decide)⟩

/-- C8: a string is returned by `parseEmoticons` exactly when it is made of 1 to 15 word
characters and occurs between parentheses in the text; empty, unbalanced and non-word
parentheses of the test contribute nothing. -/
theorem parseEmoticons_exactly_occurrences (iter : List Nat) (text : Str) :
    (∀ e, e ∈ parseEmoticons iter text ↔ IsEmoticon text e)
    ∧ parseEmoticons iter "()".toList = []
    ∧ parseEmoticons iter "(sads( sas)".toList = []
    ∧ parseEmoticons iter "(абвгд)".toList = []
    ∧ (∀ e, e ∈ parseEmoticons iter
          "(sda)(), asd, (sads( sas), (абвгд) (morethanfifteencharactersemoticon)".toList
        ↔ e = "sda".toList) := by
  refine ⟨fun e => parseEmoticons_iff_occurrence iter text e,
    parseEmoticons_of_no_match iter _ (by decide),
    parseEmoticons_of_no_match iter _ (by decide),
    parseEmoticons_of_no_match iter _ (by decide), fun e => ?_⟩
  rw [mem_parseEmoticons]
  have h : (FindAllSubmatch regexEmoticons
      "(sda)(), asd, (sads( sas), (абвгд) (morethanfifteencharactersemoticon)".toList).map
      (fun mt => mt.sub 1) = ["sda".toList] := by decide
  rw [h]
  simp

/-! ## The title pattern -/

theorem consumes_of_lit_seq (w : Str) (r : Regex) (hw : w ≠ []) :
    ConsumesInput (.seq (Regex.lit w) r) := by
  intro s p h
  unfold Regex.matchAt at h
  rw [run_seq] at h
  obtain ⟨t, hs, hk⟩ := run_lit_eq_some w s [] _ p h
  obtain ⟨s1, c1, hs1, hk1⟩ := run_some_suffix r t [] _ p hk
  simp only [Option.some.injEq] at hk1
  have h1 := hs1.length_le
  have h2 : 0 < w.length := List.length_pos.mpr hw
  rw [← hk1, hs, List.length_append]
  simp only
  omega

theorem regexTitle_consumes : ConsumesInput regexTitle :=
  consumes_of_lit_seq _ _ (by decide)

theorem run_reAny_cons (x : Char) (xs : Str) (c : Caps) (k : Cont) :
    reAny.run (x :: xs) c k = k xs c := by
  unfold reAny
  rw [run_alt, run_cls_cons, run_chr_cons]
  by_cases hx : x = '\n'
  · subst hx
    have : isDot '\n' = false := by decide
    simp [this, orElse_none_left]
  · have : isDot x = true := by simp [isDot, hx]
    simp [hx, this, orElse_none_right]

/-- A lazy `(.|\n)*?` stops at the first place where what follows the loop matches. -/
theorem starLoop_lazy_any (n : Nat) (k : Cont) (b : Str) (hsucc : ∀ c, (k b c).isSome = true)
    (a : Str) (c : Caps) (fuel : Nat) (hf : a.length ≤ fuel)
    (hfail : ∀ a1 a2 c1, a = a1 ++ a2 → a2 ≠ [] → k (a2 ++ b) c1 = none) :
    ∃ c1, starLoop (fun s1 c1 k1 => (Regex.group n reAny).run s1 c1 k1) false fuel
      (a ++ b) c k = k b c1 := by
  induction a generalizing c fuel with
  | nil =>
    cases fuel with
    | zero => exact ⟨c, rfl⟩
    | succ f =>
      refine ⟨c, ?_⟩
      simp only [starLoop, List.nil_append, Bool.false_eq_true, if_false]
      exact orElse_of_isSome _ _ (hsucc c)
  | cons x xs ih =>
    cases fuel with
    | zero => simp at hf
    | succ f =>
      have hf1 : xs.length ≤ f := by simpa using hf
      have h0 : k (x :: (xs ++ b)) c = none := hfail [] (x :: xs) c rfl (by simp)
      obtain ⟨c1, hc1⟩ := ih ((n, (x :: (xs ++ b)).take
          ((x :: (xs ++ b)).length - (xs ++ b).length)) :: c) f hf1
        (fun a1 a2 c1 ha hne => hfail (x :: a1) a2 c1 (by rw [ha]; rfl) hne)
      refine ⟨c1, ?_⟩
      rw [← hc1]
      simp only [starLoop, Bool.false_eq_true, if_false, h0, orElse_none_left, run_group,
        List.cons_append, run_reAny_cons, List.length_cons, Nat.lt_succ_self, if_true]

theorem no_straddle (h : Char) (wt : Str) (hnot : h ∉ wt) (t a1 a2 post : Str)
    (ht : t = a1 ++ a2) (hne : a2 ≠ []) (hinf : ¬ (h :: wt) <:+: t) :
    ¬ ∃ r, a2 ++ ((h :: wt) ++ post) = (h :: wt) ++ r := by
  rintro ⟨r, hr⟩
  rcases List.append_eq_append_iff.mp hr with ⟨a', h1, h2⟩ | ⟨c', h1, h2⟩
  · cases a' with
    | nil =>
      apply hinf
      simp only [List.append_nil] at h1
      exact ⟨a1, [], by rw [ht, ← h1]; simp⟩
    | cons z zs =>
      cases a2 with
      | nil => exact hne rfl
      | cons y ys =>
        simp only [List.cons_append, List.cons.injEq] at h1 h2
        apply hnot
        rw [h1.2, h2.1]
        simp
  · apply hinf
    exact ⟨a1, c', by rw [ht, h1]; simp⟩

theorem lit_run_none_of_straddle (h : Char) (wt : Str) (hnot : h ∉ wt) (t a1 a2 post : Str)
    (ht : t = a1 ++ a2) (hne : a2 ≠ []) (hinf : ¬ (h :: wt) <:+: t) (c : Caps) (k : Cont) :
    (Regex.lit (h :: wt)).run (a2 ++ ((h :: wt) ++ post)) c k = none := by
  cases hrun : (Regex.lit (h :: wt)).run (a2 ++ ((h :: wt) ++ post)) c k with
  | none => rfl
  | some res =>
    obtain ⟨r, hr, _⟩ := run_lit_eq_some _ _ _ _ _ hrun
    exact absurd ⟨r, hr⟩ (no_straddle h wt hnot t a1 a2 post ht hne hinf)

theorem title_content_run (t post : Str) (ht : ¬ "</title>".toList <:+: t) (c : Caps) :
    ∃ c1, (Regex.seq (.group 3 (.star false (.group 4 reAny)))
        (Regex.lit "</title>".toList)).run (t ++ ("</title>".toList ++ post)) c
        (fun s1 c1 => some (s1, c1)) = some (post, (3, t) :: c1) := by
  rw [run_seq, run_group, run_star]
  obtain ⟨c1, hc1⟩ := starLoop_lazy_any 4
    (fun s1 c1 => (Regex.lit "</title>".toList).run s1
      ((3, (t ++ ("</title>".toList ++ post)).take
        ((t ++ ("</title>".toList ++ post)).length - s1.length)) :: c1)
      (fun s1 c1 => some (s1, c1)))
    ("</title>".toList ++ post) (by intro c; dsimp only; rw [run_lit_append]; rfl)
    t c (t ++ ("</title>".toList ++ post)).length (by simp)
    (by
      intro a1 a2 c1 ha hne
      exact lit_run_none_of_straddle '<' "/title>".toList (by decide) t a1 a2 post ha hne ht _ _)
  refine ⟨c1, ?_⟩
  rw [hc1, run_lit_append]
  have hl : (t ++ ("</title>".toList ++ post)).length
      - ("</title>".toList ++ post).length = t.length := by
    simp
  rw [hl, List.take_left' rfl]

theorem matchAt_regexTitle_element (attrs t post : Str) (hattrs : '>' ∉ attrs)
    (ht : ¬ "</title>".toList <:+: t) :
    ∃ c1, regexTitle.matchAt
        ("<title".toList ++ (attrs ++ '>' :: (t ++ ("</title>".toList ++ post))))
      = some (post, (3, t) :: c1) := by
  unfold regexTitle Regex.matchAt
  rw [run_seq, run_lit_append, run_seq, run_group, run_star]
  obtain ⟨c1, hc1⟩ := starLoop_lazy_any 2
    (fun s1 c1 =>
      (Regex.seq (.chr '>') (.seq (.group 3 (.star false (.group 4 reAny)))
        (Regex.lit "</title>".toList))).run s1
        ((1, (attrs ++ '>' :: (t ++ ("</title>".toList ++ post))).take
          ((attrs ++ '>' :: (t ++ ("</title>".toList ++ post))).length - s1.length)) :: c1)
        (fun s1 c1 => some (s1, c1)))
    ('>' :: (t ++ ("</title>".toList ++ post)))
    (by
      intro c
      dsimp only
      rw [run_seq, run_chr_cons, if_pos rfl]
      obtain ⟨c2, hc2⟩ := title_content_run t post ht
        ((1, (attrs ++ '>' :: (t ++ ("</title>".toList ++ post))).take
          ((attrs ++ '>' :: (t ++ ("</title>".toList ++ post))).length
            - ('>' :: (t ++ ("</title>".toList ++ post))).length)) :: c)
      rw [hc2]
      rfl)
    attrs [] (attrs ++ '>' :: (t ++ ("</title>".toList ++ post))).length (by simp)
    (by
      intro a1 a2 c1 ha hne
      cases a2 with
      | nil => exact absurd rfl hne
      | cons y ys =>
        have hy : y ≠ '>' := by
          intro hy
          apply hattrs
          rw [ha, hy]
          simp
        dsimp only
        rw [run_seq, List.cons_append, run_chr_cons, if_neg hy])
  rw [hc1, run_seq, run_chr_cons, if_pos rfl]
  obtain ⟨c2, hc2⟩ := title_content_run t post ht
    ((1, (attrs ++ '>' :: (t ++ ("</title>".toList ++ post))).take
      ((attrs ++ '>' :: (t ++ ("</title>".toList ++ post))).length
        - ('>' :: (t ++ ("</title>".toList ++ post))).length)) :: c1)
  exact ⟨c2, hc2⟩

theorem matchAt_regexTitle_before (pre a1 a2 rest : Str) (hpre : ¬ "<title".toList <:+: pre)
    (ha : pre = a1 ++ a2) (hne : a2 ≠ []) :
    regexTitle.matchAt (a2 ++ ("<title".toList ++ rest)) = none := by
  unfold regexTitle Regex.matchAt
  rw [run_seq]
  exact lit_run_none_of_straddle '<' "title".toList (by decide) pre a1 a2 rest ha hne hpre _ _

theorem allMatches_regexTitle_skip (pre rest : Str) (hpre : ¬ "<title".toList <:+: pre) :
    regexTitle.allMatches (pre ++ ("<title".toList ++ rest))
      = regexTitle.allMatches ("<title".toList ++ rest) := by
  have key : ∀ a2 a1 : Str, pre = a1 ++ a2 →
      regexTitle.allMatches (a2 ++ ("<title".toList ++ rest))
        = regexTitle.allMatches ("<title".toList ++ rest) := by
    intro a2
    induction a2 with
    | nil => intro a1 _; rfl
    | cons x xs ih =>
      intro a1 ha
      have hnone := matchAt_regexTitle_before pre a1 (x :: xs) rest hpre ha (by simp)
      rw [List.cons_append] at hnone ⊢
      rw [allMatches_cons_of_none _ regexTitle_consumes _ _ hnone]
      exact ih (a1 ++ [x]) (by rw [ha]; simp)
  exact key pre [] rfl

theorem findTitle_element (pre attrs t post : Str) (hpre : ¬ "<title".toList <:+: pre)
    (hattrs : '>' ∉ attrs) (ht : ¬ "</title>".toList <:+: t) :
    ∃ m ms, FindAllSubmatch regexTitle
        (pre ++ "<title".toList ++ attrs ++ ">".toList ++ t ++ "</title>".toList ++ post)
      = m :: ms ∧ m.sub 3 = t := by
  have hbody : pre ++ "<title".toList ++ attrs ++ ">".toList ++ t ++ "</title>".toList ++ post
      = pre ++ ("<title".toList ++ (attrs ++ '>' :: (t ++ ("</title>".toList ++ post)))) := by
    have : ">".toList = ['>'] := rfl
    rw [this]
    simp only [List.append_assoc, List.singleton_append, List.cons_append, List.nil_append]
  obtain ⟨c1, hc1⟩ := matchAt_regexTitle_element attrs t post hattrs ht
  rw [hbody, FindAllSubmatch, allMatches_regexTitle_skip pre _ hpre]
  have hcons : "<title".toList ++ (attrs ++ '>' :: (t ++ ("</title>".toList ++ post)))
      = '<' :: ("title".toList ++ (attrs ++ '>' :: (t ++ ("</title>".toList ++ post)))) := rfl
  rw [hcons] at hc1 ⊢
  rw [allMatches_cons_of_some _ regexTitle_consumes _ _ _ hc1]
  exact ⟨_, _, rfl, by simp [Match.sub]⟩

/-- C4: when the page of a link reads `pre <title attrs> t </title> post`, with no `<title`
in `pre`, no `>` in `attrs` and no `</title>` in `t`, the title reported for the link is
exactly `t`. -/
theorem linkTask_title_verbatim {U E : Type} (lib : NetLib U E) (client : HttpClient)
    (i : Nat) (link s pre attrs t post : Str)
    (hs : sanitizeUrl lib link = .ok s)
    (hc : client i s = .body
      (pre ++ "<title".toList ++ attrs ++ ">".toList ++ t ++ "</title>".toList ++ post))
    (hpre : ¬ "<title".toList <:+: pre) (hattrs : '>' ∉ attrs)
    (ht : ¬ "</title>".toList <:+: t) :
    (linkTask lib client i link).link = ⟨link, t⟩ := by
  obtain ⟨m, ms, hm, hsub⟩ := findTitle_element pre attrs t post hpre hattrs ht
  unfold linkTask
  rw [hs]
  dsimp only
  rw [hc]
  dsimp only
  rw [hm]
  dsimp only
  rw [hsub]

/-- C4 on the pages `<title>Example</title>` and `<title id="3">Torrent Tracker</title>`, and
on a title that spans lines and is not ASCII. -/
theorem linkTask_title_verbatim_witness :
    (linkTask sampleLib (pageClient "<title>Example</title>".toList) 0 "http://e".toList).link
      = ⟨"http://e".toList, "Example".toList⟩
    ∧ (linkTask sampleLib (pageClient "<title id=\"3\">Torrent Tracker</title>".toList) 0
        "http://e".toList).link = ⟨"http://e".toList, "Torrent Tracker".toList⟩
    ∧ (linkTask sampleLib (pageClient "a<title\n x> Торрент\n треккер </title>b".toList) 0
        "http://e".toList).link = ⟨"http://e".toList, " Торрент\n треккер ".toList⟩ :=
  ⟨linkTask_title_verbatim sampleLib (pageClient "<title>Example</title>".toList) 0
      "http://e".toList "http://e".toList [] [] "Example".toList [] rfl rfl
      (by decide) (by decide) (by decide),
   linkTask_title_verbatim sampleLib
      (pageClient "<title id=\"3\">Torrent Tracker</title>".toList) 0
      "http://e".toList "http://e".toList [] " id=\"3\"".toList "Torrent Tracker".toList []
      rfl rfl (by decide) (by decide) (by decide),
   linkTask_title_verbatim sampleLib
      (pageClient "a<title\n x> Торрент\n треккер </title>b".toList) 0
      "http://e".toList "http://e".toList "a".toList "\n x".toList
      " Торрент\n треккер ".toList "b".toList rfl rfl (by decide) (by decide) (by decide)⟩

/-! ## Requests and normalisation -/

theorem sanitizeUrl_of_isASCII {U E : Type} (lib : NetLib U E) (link : Str)
    (h : isASCII link = true) : sanitizeUrl lib link = .ok link := by
  simp [sanitizeUrl, h]

theorem isASCII_iff (s : Str) : isASCII s = true ↔ ∀ c ∈ s, c.toNat ≤ 127 := by
  induction s with
  | nil => simp [isASCII]
  | cons x xs ih =>
    by_cases hx : x.toNat > 127
    · simp only [isASCII, hx, if_true, List.mem_cons, forall_eq_or_imp]
      constructor
      · intro h; simp at h
      · intro h; omega
    · simp only [isASCII, hx, if_false, List.mem_cons, forall_eq_or_imp, ih]
      constructor
      · intro h; exact ⟨by omega, h⟩
      · intro h; exact h.2

theorem linkTask_of_getError {U E : Type} (lib : NetLib U E) (client : HttpClient) (i : Nat)
    (link s : Str) (hs : sanitizeUrl lib link = .ok s) (hc : client i s = .getError) :
    linkTask lib client i link = ⟨⟨link, website⟩, [s]⟩ := by
  unfold linkTask
  rw [hs]; dsimp only; rw [hc]

theorem linkTask_of_ok {U E : Type} (lib : NetLib U E) (client : HttpClient) (i : Nat)
    (link s : Str) (hs : sanitizeUrl lib link = .ok s) :
    linkTask lib client i link = ⟨⟨link, titleOfFetch (client i s)⟩, [s]⟩ := by
  unfold linkTask titleOfFetch
  rw [hs]; dsimp only
  cases client i s with
  | getError => rfl
  | readError => rfl
  | body b =>
    dsimp only
    cases FindAllSubmatch regexTitle b <;> rfl

theorem linkTask_of_error {U E : Type} (lib : NetLib U E) (client : HttpClient) (i : Nat)
    (link : Str) (e : E) (hs : sanitizeUrl lib link = .error e) :
    linkTask lib client i link = ⟨⟨link, website⟩, []⟩ := by
  unfold linkTask
  rw [hs]

/-- C11, as the code has it: the Link of a match whose request fails has the title "Website"
and the matched substring itself as URL; that is the link's normalised form whenever the link
is all ASCII. -/
theorem linkTask_get_failure {U E : Type} (lib : NetLib U E) (client : HttpClient) (i : Nat)
    (link s : Str) (hs : sanitizeUrl lib link = .ok s) (hc : client i s = .getError) :
    (linkTask lib client i link).link = ⟨link, "Website".toList⟩
    ∧ (isASCII link = true → s = link ∧ (linkTask lib client i link).link.URL = s) := by
  have h := linkTask_of_getError lib client i link s hs hc
  refine ⟨by rw [h]; rfl, fun ha => ?_⟩
  have h2 := sanitizeUrl_of_isASCII lib link ha
  rw [hs] at h2
  have hsl : s = link := by injection h2
  exact ⟨hsl, by rw [h, hsl]⟩

/-- C11, as amended, on the ASCII link `http://b` with a client whose requests fail. -/
theorem linkTask_get_failure_witness :
    (linkTask sampleLib failingClient 0 "http://b".toList).link
      = ⟨"http://b".toList, "Website".toList⟩
    ∧ (isASCII "http://b".toList = true → "http://b".toList = "http://b".toList
        ∧ (linkTask sampleLib failingClient 0 "http://b".toList).link.URL
          = "http://b".toList) :=
  linkTask_get_failure sampleLib failingClient 0 "http://b".toList "http://b".toList rfl rfl

/-- C11, as stated, fails: the request for `http://торрент.рф` goes to the ASCII form of the
link and fails, and the Link keeps the matched substring, not the ASCII form. -/
theorem linkTask_get_failure_counterexample :
    sanitizeUrl sampleLib "http://торрент.рф".toList
      = .ok "http://xn--e1aqbiajf.xn--p1ai".toList
    ∧ failingClient 0 "http://xn--e1aqbiajf.xn--p1ai".toList = .getError
    ∧ (linkTask sampleLib failingClient 0 "http://торрент.рф".toList).link
      = ⟨"http://торрент.рф".toList, "Website".toList⟩
    ∧ (linkTask sampleLib failingClient 0 "http://торрент.рф".toList).link.URL
      ≠ "http://xn--e1aqbiajf.xn--p1ai".toList :=
  ⟨rfl, rfl, by decide, by decide⟩

/-- C12: a task whose link is sanitized issues one request, to the sanitized link, and the
title it reports is the one taken from the outcome of that request; a task whose link cannot
be sanitized issues none; an all-ASCII link is requested as it is. -/
theorem linkTask_requests_sanitized {U E : Type} (lib : NetLib U E) (client : HttpClient)
    (i : Nat) (link : Str) :
    (∀ s, sanitizeUrl lib link = .ok s →
        (linkTask lib client i link).gets = [s]
        ∧ (linkTask lib client i link).link = ⟨link, titleOfFetch (client i s)⟩)
    ∧ (∀ e, sanitizeUrl lib link = .error e → (linkTask lib client i link).gets = [])
    ∧ (isASCII link = true → (linkTask lib client i link).gets = [link])
    ∧ (isASCII link = false → ∀ u h, lib.urlParse link = .ok u → lib.toASCII (lib.host u) = .ok h →
        (linkTask lib client i link).gets = [lib.urlString (lib.setHost u h)])
    ∧ (linkTask sampleLib client i "http://торрент.рф".toList).gets
        = ["http://xn--e1aqbiajf.xn--p1ai".toList] := by
  refine ⟨fun s hs => ?_, fun e he => ?_, fun ha => ?_, fun ha u h hu hh => ?_, ?_⟩
  · rw [linkTask_of_ok lib client i link s hs]
    exact ⟨rfl, rfl⟩
  · rw [linkTask_of_error lib client i link e he]
  · rw [linkTask_of_ok lib client i link link (sanitizeUrl_of_isASCII lib link ha)]
  · have hs : sanitizeUrl lib link = .ok (lib.urlString (lib.setHost u h)) := by
      simp [sanitizeUrl, ha, hu, hh]
    rw [linkTask_of_ok lib client i link _ hs]
  · rw [linkTask_of_ok sampleLib client i "http://торрент.рф".toList
      "http://xn--e1aqbiajf.xn--p1ai".toList rfl]

/-- C13: `isASCII` holds exactly of the strings whose characters all have a code point of at
most 127, and `sanitizeUrl` returns such a string unchanged and without error, whatever
`url.Parse` and `idna.ToASCII` would do with it. -/
theorem sanitizeUrl_ascii_unchanged (s : Str) :
    (isASCII s = true ↔ ∀ c ∈ s, c.toNat ≤ 127)
    ∧ ((∀ c ∈ s, c.toNat ≤ 127) →
        ∀ (U E : Type) (lib : NetLib U E),
          sanitizeUrl lib s = .ok s ∧ sanitizeUrlPair lib s = (s, none))
    ∧ (∀ (U E : Type) (lib : NetLib U E),
          sanitizeUrl lib [] = .ok [] ∧ sanitizeUrlPair lib [] = ([], none)) := by
  refine ⟨isASCII_iff s, fun h U E lib => ?_, fun U E lib => ⟨rfl, rfl⟩⟩
  have ha := (isASCII_iff s).mpr h
  exact ⟨sanitizeUrl_of_isASCII lib s ha, by simp [sanitizeUrlPair, ha]⟩

/-! ## Texts without matches, and isolation of the tasks -/

theorem parseMentions_of_no_match (iter : List Nat) (text : Str)
    (h : FindAllSubmatch regexMentions text = []) : parseMentions iter text = [] := by
  simp [parseMentions, h, uniqueKeys, drain]

theorem parseLinks_of_no_match {U E : Type} (lib : NetLib U E) (client : HttpClient)
    (sched : List Nat) (text : Str) (h : FindAllString regexLinks text = []) :
    parseLinks lib client sched text = [] := by
  simp [parseLinks, h]

/-- C14: on a text in which none of the three patterns has a match, `Parse` returns three
empty sequences, each of them an allocated (non-nil) slice, and no request is issued. -/
theorem Parse_no_match {U E : Type} (lib : NetLib U E) (client : HttpClient)
    (iterM iterE sched : List Nat) (text : Str)
    (hm : FindAllSubmatch regexMentions text = [])
    (he : FindAllSubmatch regexEmoticons text = [])
    (hl : FindAllString regexLinks text = []) :
    Parse lib client iterM iterE sched text = ⟨[], [], []⟩
    ∧ parseMentionsValue iterM text = .alloc []
    ∧ parseEmoticonsValue iterE text = .alloc []
    ∧ parseLinksValue lib client sched text = .alloc []
    ∧ parseLinksGets lib client text = [] := by
  have h1 := parseMentions_of_no_match iterM text hm
  have h2 := parseEmoticons_of_no_match iterE text he
  have h3 := parseLinks_of_no_match lib client sched text hl
  refine ⟨?_, ?_, ?_, ?_, ?_⟩
  · simp [Parse, h1, h2, h3]
  · simp [parseMentionsValue, h1]
  · simp [parseEmoticonsValue, h2]
  · simp [parseLinksValue, hl]
  · simp [parseLinksGets, hl]

/-- C14 on the empty text. -/
theorem Parse_no_match_witness :
    Parse sampleLib sampleClient [] [] [] [] = ⟨[], [], []⟩
    ∧ parseMentionsValue [] [] = .alloc []
    ∧ parseEmoticonsValue [] [] = .alloc []
    ∧ parseLinksValue sampleLib sampleClient [] [] = .alloc []
    ∧ parseLinksGets sampleLib sampleClient [] = [] :=
  Parse_no_match sampleLib sampleClient [] [] [] [] (by decide) (by decide) (by decide)

theorem linkTask_congr {U E : Type} (lib : NetLib U E) (c1 c2 : HttpClient) (i : Nat)
    (link : Str) (h : ∀ s, sanitizeUrl lib link = .ok s → c1 i s = c2 i s) :
    linkTask lib c1 i link = linkTask lib c2 i link := by
  cases hs : sanitizeUrl lib link with
  | error e => rw [linkTask_of_error lib c1 i link e hs, linkTask_of_error lib c2 i link e hs]
  | ok s => rw [linkTask_of_ok lib c1 i link s hs, linkTask_of_ok lib c2 i link s hs, h s hs]

theorem resolveSync_getElem? {U E : Type} (lib : NetLib U E) (client : HttpClient)
    (text : Str) (n : Nat) :
    (resolveSync lib client text)[n]?
      = ((FindAllString regexLinks text)[n]?).map (fun m => (linkTask lib client n m).link) := by
  simp only [resolveSync, linkTasks, List.getElem?_map, List.getElem?_enum, Option.map_map]
  rfl

/-- C15: the Link sent for a match depends only on the match and on what the client answers
to the request for its sanitized form: two clients that agree there yield the same Link for
that match, whatever they answer to the requests of the other tasks. -/
theorem link_depends_on_own_request {U E : Type} (lib : NetLib U E) (c1 c2 : HttpClient)
    (text : Str) (n : Nat)
    (h : ∀ m s, (FindAllString regexLinks text)[n]? = some m → sanitizeUrl lib m = .ok s →
      c1 n s = c2 n s) :
    (resolveSync lib c1 text)[n]? = (resolveSync lib c2 text)[n]?
    ∧ ∀ m, (FindAllString regexLinks text)[n]? = some m →
        (linkTask lib c1 n m).link = (linkTask lib c2 n m).link
        ∧ (linkTask lib c1 n m).link ∈ resolveSync lib c1 text
        ∧ (linkTask lib c2 n m).link ∈ resolveSync lib c2 text := by
  have hm : ∀ m, (FindAllString regexLinks text)[n]? = some m →
      linkTask lib c1 n m = linkTask lib c2 n m :=
    fun m hm => linkTask_congr lib c1 c2 n m (fun s hs => h m s hm hs)
  constructor
  · rw [resolveSync_getElem?, resolveSync_getElem?]
    cases hg : (FindAllString regexLinks text)[n]? with
    | none => rfl
    | some m => simp [hm m hg]
  · intro m hg
    refine ⟨by rw [hm m hg], ?_, ?_⟩
    · have := resolveSync_getElem? lib c1 text n
      rw [hg] at this
      exact List.getElem?_mem this
    · have := resolveSync_getElem? lib c2 text n
      rw [hg] at this
      exact List.getElem?_mem this

/-- C15 on two links: the clients agree on `http://a`, and for `http://b` one serves a page
and the other fails. -/
theorem link_depends_on_own_request_witness :
    sampleClient 1 "http://b".toList ≠ onlyAClient 1 "http://b".toList
    ∧ (resolveSync sampleLib sampleClient "http://a http://b".toList)[0]?
      = (resolveSync sampleLib onlyAClient "http://a http://b".toList)[0]? :=
  ⟨by decide,
   (link_depends_on_own_request sampleLib sampleClient onlyAClient
      "http://a http://b".toList 0
      (by
        intro m s hm hs
        have h0 : (FindAllString regexLinks "http://a http://b".toList)[0]?
            = some "http://a".toList := by decide
        rw [h0] at hm
        injection hm with hm
        subst hm
        have h1 : sanitizeUrl sampleLib "http://a".toList = .ok "http://a".toList := rfl
        rw [h1] at hs
        injection hs with hs
        subst hs
        decide)).1⟩

/-! ## Errors of `sanitizeUrl` -/

theorem sanitizeUrlPair_eq {U E : Type} (lib : NetLib U E) (link : Str) :
    sanitizeUrlPair lib link
      = match sanitizeUrl lib link with
        | .ok s => (s, none)
        | .error e => ([], some e) := by
  unfold sanitizeUrlPair sanitizeUrl
  split
  · rfl
  · cases lib.urlParse link with
    | error e => rfl
    | ok u =>
      dsimp only
      cases lib.toASCII (lib.host u) <;> rfl

/-- C16: on a link with a non-ASCII character `sanitizeUrl` fails exactly when `url.Parse`
fails on the link or `idna.ToASCII` fails on the parsed host, the string returned with an
error is empty, and on success the result is the parsed URL, its host replaced by the
`ToASCII` result, written back as a string; on an all-ASCII link it never fails. -/
theorem sanitizeUrl_errors {U E : Type} (lib : NetLib U E) (link : Str)
    (h : isASCII link = false) :
    ((∃ e, sanitizeUrl lib link = .error e)
      ↔ (∃ e, lib.urlParse link = .error e)
        ∨ ∃ u e, lib.urlParse link = .ok u ∧ lib.toASCII (lib.host u) = .error e)
    ∧ (∀ e, sanitizeUrl lib link = .error e ↔ sanitizeUrlPair lib link = ([], some e))
    ∧ (∀ e, (sanitizeUrlPair lib link).2 = some e → (sanitizeUrlPair lib link).1 = [])
    ∧ (∀ u hst, lib.urlParse link = .ok u → lib.toASCII (lib.host u) = .ok hst →
        sanitizeUrl lib link = .ok (lib.urlString (lib.setHost u hst))
        ∧ sanitizeUrlPair lib link = (lib.urlString (lib.setHost u hst), none))
    ∧ (∀ l : Str, isASCII l = true →
        sanitizeUrl lib l = .ok l ∧ sanitizeUrlPair lib l = (l, none)) := by
  refine ⟨?_, ?_, ?_, ?_, ?_⟩
  · unfold sanitizeUrl
    rw [h]
    simp only [Bool.false_eq_true, if_false]
    cases hp : lib.urlParse link with
    | error e => simp
    | ok u =>
      cases ht : lib.toASCII (lib.host u) with
      | error e => simp [ht]
      | ok hst => simp [ht]
  · intro e
    rw [sanitizeUrlPair_eq]
    cases sanitizeUrl lib link with
    | error e1 => simp
    | ok s => simp
  · intro e
    rw [sanitizeUrlPair_eq]
    cases sanitizeUrl lib link with
    | error e1 => simp
    | ok s => simp
  · intro u hst hu ht
    constructor
    · simp [sanitizeUrl, h, hu, ht]
    · simp [sanitizeUrlPair, h, hu, ht]
  · intro l hl
    exact ⟨sanitizeUrl_of_isASCII lib l hl, by simp [sanitizeUrlPair, hl]⟩

/-- C16 on the link `http://торрент.рф`, and on a link whose host `ToASCII` rejects. -/
theorem sanitizeUrl_errors_witness :
    isASCII "http://торрент.рф".toList = false
    ∧ sanitizeUrl sampleLib "http://торрент.рф".toList
      = .ok "http://xn--e1aqbiajf.xn--p1ai".toList
    ∧ sanitizeUrlPair sampleLib "http://ё".toList = ([], some ()) :=
  ⟨by decide,
   ((sanitizeUrl_errors sampleLib "http://торрент.рф".toList (by decide)).2.2.2.1
      "http://торрент.рф".toList "xn--e1aqbiajf.xn--p1ai".toList rfl rfl).1,
   ((sanitizeUrl_errors sampleLib "http://ё".toList (by decide)).2.1 ()).mp rfl⟩

/-! ## Titles that are absent, upper-case or empty -/

theorem regexTitle_match_has_tags (s : Str) (p : Str × Caps)
    (h : regexTitle.matchAt s = some p) :
    "<title".toList <:+: s ∧ "</title>".toList <:+: s := by
  unfold regexTitle Regex.matchAt at h
  rw [run_seq] at h
  obtain ⟨t, hs, hk⟩ := run_lit_eq_some _ _ _ _ _ h
  rw [run_seq] at hk
  obtain ⟨s1, c1, hs1, hk1⟩ := run_some_suffix _ _ _ _ _ hk
  rw [run_seq] at hk1
  obtain ⟨s2, c2, hs2, hk2⟩ := run_some_suffix _ _ _ _ _ hk1
  rw [run_seq] at hk2
  obtain ⟨s3, c3, hs3, hk3⟩ := run_some_suffix _ _ _ _ _ hk2
  obtain ⟨t3, ht3, _⟩ := run_lit_eq_some _ _ _ _ _ hk3
  constructor
  · exact ⟨[], t, by rw [hs]; simp⟩
  · have hsuf : s3 <:+ s := by
      refine ((hs3.trans hs2).trans hs1).trans ?_
      rw [hs]
      exact List.suffix_append _ _
    obtain ⟨a, ha⟩ := hsuf
    exact ⟨a, t3, by rw [← ha, ht3]; simp⟩

theorem findTitle_nil_of_no_tag (b : Str)
    (h : ¬ "<title".toList <:+: b ∨ ¬ "</title>".toList <:+: b) :
    FindAllSubmatch regexTitle b = [] := by
  apply List.eq_nil_iff_forall_not_mem.mpr
  intro m hm
  obtain ⟨hsuf, hmatch⟩ := allMatches_sound _ regexTitle_consumes b m hm
  obtain ⟨h1, h2⟩ := regexTitle_match_has_tags _ _ hmatch
  rcases h with h | h
  · exact h (h1.trans hsuf.isInfix)
  · exact h (h2.trans hsuf.isInfix)

/-- C18: the title pattern is case-sensitive: a page without a lower-case `<title` or without
a lower-case `</title>` leaves the title "Website". -/
theorem linkTask_title_case_sensitive {U E : Type} (lib : NetLib U E) (client : HttpClient)
    (i : Nat) (link s b : Str) (hs : sanitizeUrl lib link = .ok s)
    (hc : client i s = .body b)
    (hb : ¬ "<title".toList <:+: b ∨ ¬ "</title>".toList <:+: b) :
    FindAllSubmatch regexTitle b = []
    ∧ (linkTask lib client i link).link = ⟨link, "Website".toList⟩ := by
  have h := findTitle_nil_of_no_tag b hb
  refine ⟨h, ?_⟩
  rw [linkTask_of_ok lib client i link s hs, hc]
  simp [titleOfFetch, h, website]

/-- C18 on the page `<TITLE>x</TITLE>`. -/
theorem linkTask_title_case_sensitive_witness :
    FindAllSubmatch regexTitle "<TITLE>x</TITLE>".toList = []
    ∧ (linkTask sampleLib (pageClient "<TITLE>x</TITLE>".toList) 0 "http://e".toList).link
      = ⟨"http://e".toList, "Website".toList⟩ :=
  linkTask_title_case_sensitive sampleLib (pageClient "<TITLE>x</TITLE>".toList) 0
    "http://e".toList "http://e".toList "<TITLE>x</TITLE>".toList rfl rfl
    (Or.inl (by decide))

theorem linkTask_title_of_element {U E : Type} (lib : NetLib U E) (client : HttpClient)
    (i : Nat) (link s pre attrs t post : Str) (hs : sanitizeUrl lib link = .ok s)
    (hc : client i s = .body
      (pre ++ "<title".toList ++ attrs ++ ">".toList ++ t ++ "</title>".toList ++ post))
    (hpre : ¬ "<title".toList <:+: pre) (hattrs : '>' ∉ attrs)
    (ht : ¬ "</title>".toList <:+: t) :
    (linkTask lib client i link).link = ⟨link, t⟩ := by
  obtain ⟨m, ms, hm, hsub⟩ := findTitle_element pre attrs t post hpre hattrs ht
  rw [linkTask_of_ok lib client i link s hs, hc]
  simp only [titleOfFetch, hm, hsub]

/-- C19: an empty title element replaces the fallback with the empty string, and a task
reports "Website" only when it fell back (no sanitized link, failed request, unreadable body,
no match of the title pattern) or when the first title of the page is "Website" itself. -/
theorem linkTask_empty_title {U E : Type} (lib : NetLib U E) (client : HttpClient)
    (i : Nat) (link : Str) :
    (∀ s pre post : Str, sanitizeUrl lib link = .ok s →
        client i s = .body (pre ++ "<title>".toList ++ "</title>".toList ++ post) →
        ¬ "<title".toList <:+: pre →
        (linkTask lib client i link).link = ⟨link, []⟩
        ∧ (linkTask lib client i link).link.Title ≠ "Website".toList)
    ∧ ((linkTask lib client i link).link.Title = "Website".toList →
        (∃ e, sanitizeUrl lib link = .error e)
        ∨ ∃ s, sanitizeUrl lib link = .ok s
            ∧ (client i s = .getError ∨ client i s = .readError
              ∨ ∃ b, client i s = .body b
                  ∧ (FindAllSubmatch regexTitle b = []
                    ∨ ∃ m ms, FindAllSubmatch regexTitle b = m :: ms
                        ∧ m.sub 3 = "Website".toList)))
    ∧ (linkTask sampleLib (pageClient "a<title></title>b".toList) 0 "http://e".toList).link
        = ⟨"http://e".toList, []⟩ := by
  have key : ∀ {V F : Type} (lb : NetLib V F) (cl : HttpClient) (j : Nat) (lk s pre post : Str),
      sanitizeUrl lb lk = .ok s →
      cl j s = .body (pre ++ "<title>".toList ++ "</title>".toList ++ post) →
      ¬ "<title".toList <:+: pre → (linkTask lb cl j lk).link = ⟨lk, []⟩ := by
    intro V F lb cl j lk s pre post hs hc hpre
    have hbody : pre ++ "<title>".toList ++ "</title>".toList ++ post
        = pre ++ "<title".toList ++ [] ++ ">".toList ++ [] ++ "</title>".toList ++ post := by
      have : "<title>".toList = "<title".toList ++ ">".toList := rfl
      rw [this]
      simp only [List.append_assoc, List.append_nil, List.nil_append]
    rw [hbody] at hc
    exact linkTask_title_of_element lb cl j lk s pre [] [] post hs hc hpre (by simp)
      (by decide)
  refine ⟨fun s pre post hs hc hpre => ?_, fun ht => ?_, ?_⟩
  · have h := key lib client i link s pre post hs hc hpre
    refine ⟨h, ?_⟩
    rw [h]
    show ([] : Str) ≠ "Website".toList
    decide
  · cases hs : sanitizeUrl lib link with
    | error e => exact Or.inl ⟨e, rfl⟩
    | ok s =>
      refine Or.inr ⟨s, rfl, ?_⟩
      rw [linkTask_of_ok lib client i link s hs] at ht
      simp only at ht
      cases hc : client i s with
      | getError => exact Or.inl rfl
      | readError => exact Or.inr (Or.inl rfl)
      | body b =>
        refine Or.inr (Or.inr ⟨b, rfl, ?_⟩)
        rw [hc] at ht
        simp only [titleOfFetch] at ht
        cases hf : FindAllSubmatch regexTitle b with
        | nil => exact Or.inl rfl
        | cons m ms =>
          rw [hf] at ht
          exact Or.inr ⟨m, ms, rfl, ht⟩
  · exact key sampleLib (pageClient "a<title></title>b".toList) 0 "http://e".toList
      "http://e".toList "a".toList "b".toList rfl rfl (by decide)

/-! ## Where the links sit in the text -/

theorem regexLinks_consumes : ConsumesInput regexLinks :=
  consumes_of_lit_seq _ _ (by decide)

theorem take_append_of_suffix (start rest : Str) (h : rest <:+ start) :
    start = start.take (start.length - rest.length) ++ rest := by
  obtain ⟨a, ha⟩ := h
  subst ha
  have hl : (a ++ rest).length - rest.length = a.length := by simp
  rw [hl, List.take_left' rfl]

theorem matchAt_regexLinks_scheme (s : Str) (p : Str × Caps)
    (h : regexLinks.matchAt s = some p) :
    ∃ t, (s = "http://".toList ++ t ∨ s = "https://".toList ++ t) ∧ p.1 <:+ t := by
  unfold regexLinks Regex.matchAt at h
  rw [run_seq] at h
  obtain ⟨t1, hs, hk⟩ := run_lit_eq_some _ _ _ _ _ h
  rw [run_seq] at hk
  unfold Regex.opt at hk
  rw [run_alt] at hk
  have tail : ∀ (t2 : Str),
      (Regex.seq (Regex.lit "://".toList)
        (.seq (.group 1 (.alt reHostName reHostNum))
          (.seq (Regex.alt (.group 6 (.seq (.chr ':') (Regex.plus (.cls isDigit)))) .eps)
            reTail))).run t2 [] (fun s1 c1 => some (s1, c1)) = some p →
      ∃ t3, t2 = "://".toList ++ t3 ∧ p.1 <:+ t3 := by
    intro t2 h2
    rw [run_seq] at h2
    obtain ⟨t3, ht3, hk3⟩ := run_lit_eq_some _ _ _ _ _ h2
    obtain ⟨s4, c4, hs4, hk4⟩ := run_some_suffix _ _ _ _ _ hk3
    simp only [Option.some.injEq] at hk4
    exact ⟨t3, ht3, by rw [← hk4]; exact hs4⟩
  rcases orElse_eq_some _ _ _ hk with h1 | h1
  · cases t1 with
    | nil => simp [run_chr_nil] at h1
    | cons x xs =>
      rw [run_chr_cons] at h1
      split at h1
      · rename_i hx
        obtain ⟨t3, ht3, hp⟩ := tail xs h1
        exact ⟨t3, Or.inr (by rw [hs, hx, ht3]; rfl), hp⟩
      · simp at h1
  · rw [run_eps] at h1
    obtain ⟨t3, ht3, hp⟩ := tail t1 h1
    exact ⟨t3, Or.inl (by rw [hs, ht3]; rfl), hp⟩

theorem allMatches_text_spec (r : Regex) (hr : ConsumesInput r) (s : Str) (m : Match)
    (h : m ∈ r.allMatches s) :
    m.start = m.text ++ m.rest ∧ m.text <:+: s := by
  obtain ⟨⟨gap, hgap⟩, hmatch⟩ := allMatches_sound r hr s m h
  have hsuf : m.rest <:+ m.start := matchAt_suffix r _ _ hmatch
  have hst := take_append_of_suffix m.start m.rest hsuf
  refine ⟨hst, gap, m.rest, ?_⟩
  rw [← hgap, List.append_assoc]
  exact congrArg (fun x => gap ++ x) hst.symm

/-- The matches listed by `allMatches` lie in the text one after the other. -/
theorem allMatches_occur_in_order (r : Regex) (hr : ConsumesInput r) (s : Str) :
    OccurInOrder ((r.allMatches s).map Match.text) s := by
  obtain ⟨n, hn⟩ : ∃ n, s.length = n := ⟨_, rfl⟩
  induction n using Nat.strong_induction_on generalizing s with
  | _ n ih =>
    rw [allMatches_of_search r hr]
    cases hsr : r.search s with
    | none => simp [OccurInOrder]
    | some m =>
      obtain ⟨⟨gap, hgap⟩, hmatch, hlt⟩ := search_some_spec r hr s m hsr
      have hsuf : m.rest <:+ m.start := matchAt_suffix r _ _ hmatch
      have hst := take_append_of_suffix m.start m.rest hsuf
      have hlen : m.rest.length < n := by
        have := congrArg List.length hgap
        simp only [List.length_append] at this
        omega
      simp only [List.map_cons, OccurInOrder]
      refine ⟨gap, m.rest, ?_, ih _ hlen m.rest rfl⟩
      rw [← hgap, List.append_assoc]
      exact congrArg (fun x => gap ++ x) hst

theorem link_match_scheme (text u : Str) (h : u ∈ FindAllString regexLinks text) :
    u <:+: text ∧ ("http://".toList <+: u ∨ "https://".toList <+: u) := by
  obtain ⟨m, hm, hu⟩ := List.mem_map.mp h
  obtain ⟨hst, hinf⟩ := allMatches_text_spec _ regexLinks_consumes text m hm
  obtain ⟨_, hmatch⟩ := allMatches_sound _ regexLinks_consumes text m hm
  obtain ⟨t, ht, ⟨a, ha⟩⟩ := matchAt_regexLinks_scheme _ _ hmatch
  simp only at ha
  subst hu
  refine ⟨hinf, ?_⟩
  rcases ht with ht | ht
  · left
    have : m.text ++ m.rest = ("http://".toList ++ a) ++ m.rest := by
      rw [← hst, ht, ← ha, List.append_assoc]
    rw [List.append_cancel_right this]
    exact List.prefix_append _ _
  · right
    have : m.text ++ m.rest = ("https://".toList ++ a) ++ m.rest := by
      rw [← hst, ht, ← ha, List.append_assoc]
    rw [List.append_cancel_right this]
    exact List.prefix_append _ _

theorem parseLinks_url_mem {U E : Type} (lib : NetLib U E) (client : HttpClient)
    (sched : List Nat) (text : Str) (l : Link) (hl : l ∈ parseLinks lib client sched text) :
    l.URL ∈ FindAllString regexLinks text := by
  have hu : ((parseLinks lib client sched text).map Link.URL).Perm
      (FindAllString regexLinks text) := by
    have := (parseLinks_perm lib client sched text).map Link.URL
    rwa [resolveSync, linkTasks_urls] at this
  exact hu.subset (List.mem_map_of_mem Link.URL hl)

/-- C17: every URL reported by `parseLinks` is a piece of the text that begins with
`http://` or `https://`, and the matches of the link pattern lie in the text one after the
other, without overlap, in the order in which the matcher lists them. -/
theorem parseLinks_urls_in_text {U E : Type} (lib : NetLib U E) (client : HttpClient)
    (sched : List Nat) (text : Str) :
    (∀ l ∈ parseLinks lib client sched text,
        l.URL <:+: text ∧ ("http://".toList <+: l.URL ∨ "https://".toList <+: l.URL))
    ∧ OccurInOrder (FindAllString regexLinks text) text
    ∧ (∀ u ∈ FindAllString regexLinks text, 7 ≤ u.length) := by
  refine ⟨fun l hl => link_match_scheme text l.URL (parseLinks_url_mem lib client sched text l hl),
    allMatches_occur_in_order _ regexLinks_consumes text, fun u hu => ?_⟩
  rcases (link_match_scheme text u hu).2 with h | h
  · have := h.length_le
    simpa using this
  · have := h.length_le
    have h8 : "https://".toList.length = 8 := rfl
    omega

end MParser
